import Mathlib

/-!
# Verification of the Bulbapedia table-extraction core

Shallow embedding of `src/data/bulbapedia_scraper.py` (the generic
table-to-structured-record extraction engine): `clean_text`,
`_consume_spans`, `_parse_row`, `_combine_headers`, `_normalize_columns`,
`parse_table`, `_is_team_table`, `_normalize_heading` and
`extract_sections`, together with theorems settling the frozen claims
about that code.

Python strings are modelled as Lean `String` (a list of unicode scalar
values, matching Python's sequences of code points).  Python exceptions
are modelled by `Option`: a function returning `none` models a raised
exception.  Table cells carry the output of `cell_text` (an opaque
HTML-to-text step outside the extraction arithmetic) as their `text`
field; the rowspan/colspan HTML attributes are carried as raw strings,
`none` meaning the attribute is absent, exactly as
`cell.get("colspan", 1)` sees them.
-/

/-- Python's `\s` / `str.split` whitespace for `str` patterns
(ASCII whitespace plus the unicode space characters). -/
def pyIsSpace (c : Char) : Bool :=
  c = ' ' || c = '\t' || c = '\n' || c = '\r' || c = '\x0b' || c = '\x0c' ||
  c = '\x1c' || c = '\x1d' || c = '\x1e' || c = '\x1f' || c = '\u0085' ||
  c = ' ' || c = ' ' ||
  (' ' ≤ c && c ≤ ' ') ||
  c = ' ' || c = ' ' || c = ' ' || c = ' ' || c = '　'

/-- Python `str.lower`, per character, on the character ranges this page
family uses (ASCII letters and the Latin-1 uppercase letters, which
covers `É` in `POKÉMON`). -/
def pyLowerChar (c : Char) : Char :=
  if 'A' ≤ c && c ≤ 'Z' then Char.ofNat (c.toNat + 32)
  else if 'À' ≤ c && c ≤ 'Þ' && c ≠ '×' then Char.ofNat (c.toNat + 32)
  else c

/-- Python `str.lower`. -/
def pyLower (s : String) : String := ⟨s.data.map pyLowerChar⟩

/-- `needle` occurs at the head of `hay`. -/
def headMatch : List Char → List Char → Bool
  | [], _ => true
  | _ :: _, [] => false
  | a :: as, b :: bs => a == b && headMatch as bs

/-- Substring occurrence on code-point lists (Python `needle in hay`). -/
def subOccurs (needle : List Char) : List Char → Bool
  | [] => needle.isEmpty
  | b :: bs => headMatch needle (b :: bs) || subOccurs needle bs

/-- Python `needle in hay` for strings. -/
def pyIn (needle hay : String) : Bool := subOccurs needle.data hay.data

/-- Python `sep.join(parts)`. -/
def joinSep (sep : String) : List String → String
  | [] => ""
  | [x] => x
  | x :: y :: rest => x ++ sep ++ joinSep sep (y :: rest)

/-- `max` of a list of naturals (`0` on the empty list, matching the
`default=0` uses; on nonempty lists it is Python's `max`). -/
def listMax (l : List Nat) : Nat := l.foldl Nat.max 0

/-- `text.replace("\xa0", " ")`. -/
def nbspToSpace (cs : List Char) : List Char :=
  cs.map (fun c => if c = ' ' then ' ' else c)

/-- Helper for `REFERENCE_RE`: expects one or more decimal digits
followed by `]`, returning the remainder after the `]`. -/
def refDigitsTail (ds : List Char) : Option (List Char) :=
  let digits := ds.takeWhile Char.isDigit
  let rest := ds.dropWhile Char.isDigit
  if digits.isEmpty then none
  else
    match rest with
    | ']' :: rem => some rem
    | _ => none

/-- Given the characters following a `[`, try to match the rest of
`REFERENCE_RE = r"\[(?:note\s*\d+|\d+)\]"`, returning the remainder
after the closing `]`. -/
def refTail (cs : List Char) : Option (List Char) :=
  match cs with
  | 'n' :: 'o' :: 't' :: 'e' :: rest => refDigitsTail (rest.dropWhile pyIsSpace)
  | _ => refDigitsTail cs

/-- Fuelled scanner for `REFERENCE_RE.sub("", text)`: left-to-right,
non-overlapping, leftmost-match removal.  The fuel only bounds the
recursion; `removeRefs` supplies `cs.length`, which is sufficient
because every step consumes at least one character
(see `removeRefsGo_fuel`). -/
def removeRefsGo : Nat → List Char → List Char
  | 0, cs => cs
  | _ + 1, [] => []
  | n + 1, '[' :: rest =>
    match refTail rest with
    | some rem => removeRefsGo n rem
    | none => '[' :: removeRefsGo n rest
  | n + 1, c :: rest => c :: removeRefsGo n rest

/-- `REFERENCE_RE.sub("", text)`. -/
def removeRefs (cs : List Char) : List Char := removeRefsGo cs.length cs

/-- `WHITESPACE_RE.sub(" ", text)`: collapse every whitespace run to a
single ASCII space.  The flag records whether the previous character
was part of a whitespace run. -/
def collapseGo : Bool → List Char → List Char
  | _, [] => []
  | prevWs, c :: rest =>
    if pyIsSpace c then
      if prevWs then collapseGo true rest else ' ' :: collapseGo true rest
    else c :: collapseGo false rest

/-- `WHITESPACE_RE.sub(" ", text)`. -/
def collapseWs (cs : List Char) : List Char := collapseGo false cs

/-- Membership in the strip set of `text.strip(" ;,†")`. -/
def strippable (c : Char) : Bool :=
  c = ' ' || c = ';' || c = ',' || c = '†'

/-- `text.strip(" ;,†")`. -/
def stripBoth (cs : List Char) : List Char :=
  ((cs.dropWhile strippable).reverse.dropWhile strippable).reverse

/-- `clean_text`: normalize whitespace and strip reference footnotes. -/
def cleanText (s : String) : String :=
  ⟨stripBoth (collapseWs (removeRefs (nbspToSpace s.data)))⟩

/-- Value of a nonempty all-digit character list. -/
def digitsVal (ds : List Char) : Option Int :=
  if ds.isEmpty then none
  else if ds.all Char.isDigit then
    some ((ds.foldl (fun a c => a * 10 + (c.toNat - 48)) 0 : Nat) : Int)
  else none

/-- Python `int(s)` for a string argument: optional surrounding
whitespace, optional sign, one or more decimal digits.  `none` models a
raised `ValueError`.  (Python's digit-grouping underscores are not
modelled; no attribute value in scope uses them.) -/
def pyInt (s : String) : Option Int :=
  let cs := ((s.data.dropWhile pyIsSpace).reverse.dropWhile pyIsSpace).reverse
  match cs with
  | '+' :: ds => digitsVal ds
  | '-' :: ds => (digitsVal ds).map Int.neg
  | ds => digitsVal ds

/-- `int(cell.get("colspan", 1) or 1)`: a missing attribute defaults to
the integer `1`; an empty string is falsy, so `or 1` turns it into `1`;
any other string is truthy and goes to `int`, which may raise. -/
def spanAttr (attr : Option String) : Option Int :=
  match attr with
  | none => some 1
  | some s => if s = "" then some 1 else pyInt s

example : cleanText "  Pidgey[1] " = "Pidgey" := by decide
example : cleanText "Lv. 7;" = "Lv. 7" := by decide
example : cleanText "Moves[note 3]" = "Moves" := by decide
example : pyInt " 12 " = some 12 := by decide
example : pyInt "-3" = some (-3) := by decide
example : pyInt "x" = none := by decide
example : spanAttr none = some 1 := by decide
example : spanAttr (some "") = some 1 := by decide
example : spanAttr (some "0") = some 0 := by decide
example : pyLower "POKÉMON" = "pokémon" := by decide
example : pyIn "pokémon" "the pokémon table" = true := by decide

/-! ## The span map and `_consume_spans` / `_parse_row` -/

/-- `span_map: Dict[int, Tuple[str, int]]`, mapping a column index to
the pending cell text and the remaining number of rows it covers.
Modelled as an association list with unique keys (a Python dict). -/
abbrev SpanMap := List (Int × String × Int)

/-- Dict lookup: `col_idx in span_map` / `span_map[col_idx]`. -/
def smLookup (m : SpanMap) (c : Int) : Option (String × Int) :=
  match m with
  | [] => none
  | (k, v) :: rest => if k = c then some v else smLookup rest c

/-- Dict assignment `span_map[c] = v`: replace the value at an existing
key, or append a new binding. -/
def smSet (m : SpanMap) (c : Int) (v : String × Int) : SpanMap :=
  match m with
  | [] => [(c, v)]
  | (k, w) :: rest => if k = c then (k, v) :: rest else (k, w) :: smSet rest c v

/-- Dict deletion `del span_map[c]`. -/
def smErase (m : SpanMap) (c : Int) : SpanMap :=
  match m with
  | [] => []
  | (k, w) :: rest => if k = c then smErase rest c else (k, w) :: smErase rest c

/-- Number of bindings at keys `≥ c`; an upper bound on the number of
iterations of the `_consume_spans` while-loop started at cursor `c`. -/
def countGE (m : SpanMap) (c : Int) : Nat :=
  match m with
  | [] => 0
  | (k, _) :: rest => (if c ≤ k then 1 else 0) + countGE rest c

/-- Fuelled body of the `_consume_spans` while-loop:
`while col_idx in span_map: append the pending text, decrement the
remaining count (deleting the entry when it reaches zero), advance the
cursor.`  `consumeSpans` supplies fuel `countGE m c`, which is exactly
enough (`consumeGo_fuel` shows any fuel past that bound gives the same
result, so the fuel is an artifact of totality, not of behaviour). -/
def consumeGo : Nat → List String → SpanMap → Int → List String × SpanMap × Int
  | 0, vals, m, c => (vals, m, c)
  | n + 1, vals, m, c =>
    match smLookup m c with
    | none => (vals, m, c)
    | some (text, remaining) =>
      if 1 < remaining then
        consumeGo n (vals ++ [text]) (smSet m c (text, remaining - 1)) (c + 1)
      else
        consumeGo n (vals ++ [text]) (smErase m c) (c + 1)

/-- `_consume_spans(row_values, span_map, col_idx)`, returning the
extended row values, the updated span map and the final cursor. -/
def consumeSpans (vals : List String) (m : SpanMap) (c : Int) :
    List String × SpanMap × Int :=
  consumeGo (countGE m c) vals m c

theorem smLookup_set_self (m : SpanMap) (c : Int) (v : String × Int) :
    smLookup (smSet m c v) c = some v := by
  induction m with
  | nil => simp [smSet, smLookup]
  | cons hd tl ih =>
    obtain ⟨k, w⟩ := hd
    by_cases h : k = c <;> simp [smSet, smLookup, h, ih]

theorem smLookup_set_ne (m : SpanMap) (c c' : Int) (v : String × Int)
    (h : c' ≠ c) : smLookup (smSet m c v) c' = smLookup m c' := by
  induction m with
  | nil => simp [smSet, smLookup, Ne.symm h]
  | cons hd tl ih =>
    obtain ⟨k, w⟩ := hd
    by_cases hk : k = c
    · subst hk
      simp [smSet, smLookup, Ne.symm h]
    · simp [smSet, smLookup, hk, ih]

theorem smLookup_erase_self (m : SpanMap) (c : Int) :
    smLookup (smErase m c) c = none := by
  induction m with
  | nil => simp [smErase, smLookup]
  | cons hd tl ih =>
    obtain ⟨k, w⟩ := hd
    by_cases h : k = c <;> simp [smErase, smLookup, h, ih]

theorem smLookup_erase_ne (m : SpanMap) (c c' : Int) (h : c' ≠ c) :
    smLookup (smErase m c) c' = smLookup m c' := by
  induction m with
  | nil => simp [smErase, smLookup]
  | cons hd tl ih =>
    obtain ⟨k, w⟩ := hd
    by_cases hk : k = c
    · subst hk
      simp [smErase, smLookup, Ne.symm h, ih]
    · simp [smErase, smLookup, hk, ih]

theorem countGE_split (m : SpanMap) (c : Int) :
    countGE m c = countGE m (c + 1) + (m.filter (fun e => e.1 = c)).length := by
  induction m with
  | nil => simp [countGE]
  | cons hd tl ih =>
    obtain ⟨k, w⟩ := hd
    by_cases h : k = c
    · subst h
      have h1 : ¬ (k + 1 ≤ k) := by omega
      simp [countGE, List.filter_cons, h1, ih]
      try omega
    · by_cases hle : c ≤ k
      · have hle' : c + 1 ≤ k := by omega
        simp [countGE, List.filter_cons, h, hle, hle', ih]
        try omega
      · have hle' : ¬ (c + 1 ≤ k) := by omega
        simp [countGE, List.filter_cons, h, hle, hle', ih]
        try omega

theorem filterEq_pos_of_lookup (m : SpanMap) (c : Int) (v : String × Int)
    (hl : smLookup m c = some v) :
    0 < (m.filter (fun e => e.1 = c)).length := by
  induction m with
  | nil => simp [smLookup] at hl
  | cons hd tl ih =>
    obtain ⟨k, w⟩ := hd
    by_cases hk : k = c
    · subst hk
      simp [List.filter_cons]
    · simp only [smLookup, if_neg hk] at hl
      simpa [List.filter_cons, hk] using ih hl

theorem countGE_pos_of_lookup (m : SpanMap) (c : Int) (v : String × Int)
    (hl : smLookup m c = some v) : 0 < countGE m c := by
  have h1 := countGE_split m c
  have h2 := filterEq_pos_of_lookup m c v hl
  omega

theorem countGE_set (m : SpanMap) (c : Int) (v v' : String × Int) (c' : Int)
    (hmem : smLookup m c = some v') :
    countGE (smSet m c v) c' = countGE m c' := by
  induction m with
  | nil => simp [smLookup] at hmem
  | cons hd tl ih =>
    obtain ⟨k, w⟩ := hd
    by_cases h : k = c
    · subst h
      simp [smSet, countGE]
    · simp only [smLookup, if_neg h] at hmem
      simp [smSet, countGE, h, ih hmem]

theorem countGE_erase_above (m : SpanMap) (c : Int) :
    countGE (smErase m c) (c + 1) = countGE m (c + 1) := by
  induction m with
  | nil => simp [smErase]
  | cons hd tl ih =>
    obtain ⟨k, w⟩ := hd
    by_cases h : k = c
    · subst h
      have h1 : ¬ (k + 1 ≤ k) := by omega
      simp [smErase, countGE, h1, ih]
    · simp [smErase, countGE, h, ih]

/-- The decrement/delete step of the while-loop strictly shrinks the
number of pending keys at or beyond the advanced cursor. -/
theorem countGE_step_lt_set (m : SpanMap) (c : Int) (v v' : String × Int)
    (hl : smLookup m c = some v') :
    countGE (smSet m c v) (c + 1) < countGE m c := by
  have h1 := countGE_set m c v v' (c + 1) hl
  have h2 := countGE_split m c
  have h3 := filterEq_pos_of_lookup m c v' hl
  omega

theorem countGE_step_lt_erase (m : SpanMap) (c : Int) (v : String × Int)
    (hl : smLookup m c = some v) :
    countGE (smErase m c) (c + 1) < countGE m c := by
  have h1 := countGE_erase_above m c
  have h2 := countGE_split m c
  have h3 := filterEq_pos_of_lookup m c v hl
  omega

/-- The fuel used by `consumeSpans` is sufficient: any fuel at least
`countGE m c` yields the same result, so the fuelled definition agrees
with the unbounded Python while-loop. -/
theorem consumeGo_fuel (n : Nat) (vals : List String) (m : SpanMap) (c : Int)
    (h : countGE m c ≤ n) :
    consumeGo n vals m c = consumeGo (countGE m c) vals m c := by
  induction n using Nat.strong_induction_on generalizing vals m c with
  | _ n ih =>
    match n with
    | 0 =>
      have h0 : countGE m c = 0 := Nat.le_zero.mp h
      rw [h0]
    | n + 1 =>
      match hl : smLookup m c with
      | none =>
        cases hg : countGE m c with
        | zero => simp [consumeGo, hl]
        | succ k => simp [consumeGo, hl]
      | some (text, remaining) =>
        have hpos : 0 < countGE m c := countGE_pos_of_lookup m c _ hl
        cases hg : countGE m c with
        | zero => omega
        | succ k =>
          simp only [consumeGo, hl]
          by_cases hrem : 1 < remaining
          · simp only [if_pos hrem]
            have hlt : countGE (smSet m c (text, remaining - 1)) (c + 1) < countGE m c :=
              countGE_step_lt_set m c _ _ hl
            have hle1 : countGE (smSet m c (text, remaining - 1)) (c + 1) ≤ n := by omega
            have hle2 : countGE (smSet m c (text, remaining - 1)) (c + 1) ≤ k := by omega
            rw [ih n (Nat.lt_succ_self n) _ _ _ hle1, ih k (by omega) _ _ _ hle2]
          · simp only [if_neg hrem]
            have hlt : countGE (smErase m c) (c + 1) < countGE m c :=
              countGE_step_lt_erase m c _ hl
            have hle1 : countGE (smErase m c) (c + 1) ≤ n := by omega
            have hle2 : countGE (smErase m c) (c + 1) ≤ k := by omega
            rw [ih n (Nat.lt_succ_self n) _ _ _ hle1, ih k (by omega) _ _ _ hle2]

/-- A table cell as `_parse_row` sees it: whether the element is a
`<th>` (versus `<td>`), the `cell_text` of its contents, and the raw
`colspan`/`rowspan` attribute values (`none` = attribute absent). -/
structure Cell where
  isHeader : Bool
  text : String
  colspan : Option String := none
  rowspan : Option String := none
deriving DecidableEq, Repr

/-- The body of `_parse_row`'s `for cell in cells` loop, acting on the
state `(row_values, span_map, col_idx)`:
flush pending spans at the cursor, read `colspan`/`rowspan` (raising —
`none` — when `int()` fails), append the cell text `colspan` times
while registering `rowspan - 1` pending rows for each covered column,
and advance the cursor by `colspan`. -/
def cellStep (st : List String × SpanMap × Int) (cell : Cell) :
    Option (List String × SpanMap × Int) :=
  match consumeSpans st.1 st.2.1 st.2.2 with
  | (vals, m, c) =>
    match spanAttr cell.colspan with
    | none => none
    | some colspan =>
      match spanAttr cell.rowspan with
      | none => none
      | some rowspan =>
        let vals := vals ++ List.replicate colspan.toNat cell.text
        let m :=
          if 1 < rowspan then
            (List.range colspan.toNat).foldl
              (fun acc off => smSet acc (c + off) (cell.text, rowspan - 1)) m
          else m
        some (vals, m, c + colspan)

/-- `_parse_row(cells, span_map)`: initial span flush at column 0, the
cell loop, and a final flush; returns the produced row values and the
updated span map (`none` models a raised exception from `int()`). -/
def parseRow (cells : List Cell) (m : SpanMap) :
    Option (List String × SpanMap) :=
  match cells.foldlM cellStep (consumeSpans [] m 0) with
  | none => none
  | some (vals, m, c) =>
    match consumeSpans vals m c with
    | (vals, m, _) => some (vals, m)

/-- One retained row of `parse_table`'s scanning loop: the
header/data classification (`not any(cell.name == "td")`) and the
cleaned row values. -/
abbrev TaggedRow := Bool × List String

/-- The `for row in table.find_all("tr")` loop of `parse_table`:
rows with no cells are skipped without touching the span map; rows
whose cleaned values are all empty are dropped (their span
consumption still happened); every other row is retained, tagged as a
header row iff none of its cells is a `<td>`. -/
def buildRows (m : SpanMap) : List (List Cell) → Option (List TaggedRow)
  | [] => some []
  | cells :: rest =>
    if cells.isEmpty then buildRows m rest
    else
      match parseRow cells m with
      | none => none
      | some (vals, m') =>
        let cleaned := vals.map cleanText
        if cleaned.any (fun v => v ≠ "") then
          match buildRows m' rest with
          | none => none
          | some out => some ((cells.all (fun cl => cl.isHeader), cleaned) :: out)
        else buildRows m' rest

example :
    parseRow [⟨false, "A", none, none⟩, ⟨false, "B", none, some "2"⟩] [] =
      some (["A", "B"], [(1, "B", 1)]) := by decide

example :
    parseRow [⟨false, "C", none, none⟩] [(1, "B", 1)] =
      some (["C", "B"], []) := by decide

example :
    parseRow [⟨false, "X", some "3", none⟩] [] =
      some (["X", "X", "X"], []) := by decide

example :
    parseRow [⟨false, "A", some "x", none⟩] [] = none := by decide

example :
    parseRow [⟨false, "A", some "0", none⟩] [] = some ([], []) := by decide

-- the rowspan-gap behaviour: a pending span at column 2 is not flushed
-- into a row whose own cells stop at column 1
example :
    parseRow [⟨false, "C", none, none⟩] [(2, "D", 1)] =
      some (["C"], [(2, "D", 1)]) := by decide

example :
    buildRows []
      [[⟨false, "A", none, none⟩, ⟨false, "B", none, none⟩,
        ⟨false, "D", none, some "2"⟩],
       [⟨false, "C", none, none⟩],
       [⟨false, "E", none, none⟩, ⟨false, "F", none, none⟩]] =
      some [(false, ["A", "B", "D"]), (false, ["C"]),
            (false, ["E", "F", "D"])] := by decide

/-! ## `_combine_headers`, `_normalize_columns` and the record assembly -/

/-- One position of `_combine_headers`' merge loop:
`top = clean_text(top); bottom = clean_text(bottom);` then either
`f"{top} - {bottom}"` or `bottom or top`. -/
def mergeCell (top bottom : String) : String :=
  let t := cleanText top
  let b := cleanText bottom
  if t ≠ "" && b ≠ "" && !(pyIn (pyLower b) (pyLower t)) then t ++ " - " ++ b
  else if b ≠ "" then b else t

/-- Position-by-position merge of the running header with one further
header row (the `zip(combined, row)` loop). -/
def mergeRows (combined row : List String) : List String :=
  (combined.zip row).map (fun p => mergeCell p.1 p.2)

/-- Right-pad a row with empty strings to the given width. -/
def padTo (width : Nat) (row : List String) : List String :=
  row ++ List.replicate (width - row.length) ""

/-- The `"Column {idx + 1}"` placeholder. -/
def placeholderCol (idx : Nat) : String := "Column " ++ toString (idx + 1)

/-- `_combine_headers` before the final placeholder substitution:
pad all header rows to the widest length and fold them together. -/
def combineCore (headerRows : List (List String)) : List String :=
  match headerRows with
  | [] => []
  | _ :: _ =>
    let width := listMax (headerRows.map List.length)
    let normalized := headerRows.map (padTo width)
    (normalized.tail).foldl mergeRows (normalized.headD [])

/-- `_combine_headers(header_rows)`. -/
def combineHeaders (headerRows : List (List String)) : List String :=
  (combineCore headerRows).enum.map
    (fun p => if p.2 = "" then placeholderCol p.1 else p.2)

/-- `_normalize_columns(columns, width)`: truncate/pad the label list
to `width` and replace empty labels with placeholders. -/
def normalizeColumns (columns : List String) (width : Nat) : List String :=
  let result := columns.take width ++
    (List.range' columns.length (width - columns.length)).map placeholderCol
  result.enum.map (fun p => if p.2 = "" then placeholderCol p.1 else p.2)

/-- A `Record` is a Python dict from column label to value: an
insertion-ordered association list with unique keys. -/
abbrev Record := List (String × String)

/-- Python dict assignment `d[k] = v`: update in place if the key
exists, else append. -/
def dictInsert (d : Record) (k v : String) : Record :=
  match d with
  | [] => [(k, v)]
  | (k', v') :: rest =>
    if k' = k then (k, v) :: rest else (k', v') :: dictInsert rest k v

/-- Dict lookup. -/
def dictLookup (d : Record) (k : String) : Option String :=
  match d with
  | [] => none
  | (k', v') :: rest => if k' = k then some v' else dictLookup rest k

/-- `{header[idx]: padded[idx] for idx in range(width)}` for one data
row, with `padded = row + [""] * (width - len(row))`. -/
def mkEntry (header : List String) (width : Nat) (row : List String) : Record :=
  let padded := padTo width row
  (List.range width).foldl
    (fun d idx => dictInsert d (header.getD idx "") (padded.getD idx "")) []

/-- The record-assembly loop of `parse_table`: one entry per data row,
dropped when every value in the entry is empty. -/
def assembleRecords (header : List String) (width : Nat)
    (dataRows : List (List String)) : List Record :=
  dataRows.foldl
    (fun acc row =>
      let entry := mkEntry header width row
      if entry.any (fun kv => kv.2 ≠ "") then acc ++ [entry] else acc)
    []

example : combineHeaders [["Type", ""], ["", "Fire"]] = ["Type", "Fire"] := by decide
example : combineHeaders [["Move", "Move"], ["1", "2"]] = ["Move - 1", "Move - 2"] := by decide
example : normalizeColumns ["a", ""] 3 = ["a", "Column 2", "Column 3"] := by decide
example : mkEntry ["a", "a"] 2 ["1", "2"] = [("a", "2")] := by decide
example : assembleRecords ["a", "b"] 2 [["", ""], ["x", ""]] = [[("a", "x"), ("b", "")]] := by decide

/-! ## `parse_table`, `_is_team_table`, `_normalize_heading` -/

/-- A `<table>` element as the extraction core reads it: its `class`
attribute values, the text of a `<caption>` child when present (as
`get_text(" ", strip=True)` produces it), and its `<tr>` rows, each the
list of its `<th>`/`<td>` cells. -/
structure Table where
  classes : List String := []
  caption : Option String := none
  rows : List (List Cell)
deriving DecidableEq, Repr

/-- The parsed roster table (dataclass `TeamTable`). -/
structure TeamTable where
  title : Option String
  columns : List String
  rows : List Record
deriving DecidableEq, Repr

/-- The `header_rows` list accumulated by `parse_table`'s scanning
loop: the retained rows classified as header rows, in order. -/
def taggedHeaderRows (tagged : List TaggedRow) : List (List String) :=
  (tagged.filter (fun r => r.1)).map (fun r => r.2)

/-- The `data_rows` list accumulated by `parse_table`'s scanning loop. -/
def taggedDataRows (tagged : List TaggedRow) : List (List String) :=
  (tagged.filter (fun r => !r.1)).map (fun r => r.2)

/-- `width = max(len(header) if header else 0,
max((len(row) for row in data_rows), default=0))`; since
`_combine_headers` returns `[]` exactly when there are no header rows,
`len(header) if header else 0` is just the length. -/
def tableWidth (tagged : List TaggedRow) : Nat :=
  Nat.max (combineHeaders (taggedHeaderRows tagged)).length
    (listMax ((taggedDataRows tagged).map List.length))

/-- The column labels `parse_table` settles on: synthesized
placeholders when there is no header at all, else
`_normalize_columns(header, width)`. -/
def tableHeader (tagged : List TaggedRow) : List String :=
  if (combineHeaders (taggedHeaderRows tagged)).isEmpty then
    (List.range (tableWidth tagged)).map placeholderCol
  else normalizeColumns (combineHeaders (taggedHeaderRows tagged)) (tableWidth tagged)

/-- `title = clean_text(...) if caption_tag else None`, then
`title or None`. -/
def tableTitle (t : Table) : Option String :=
  match t.caption with
  | none => none
  | some cap => if cleanText cap = "" then none else some (cleanText cap)

/-- `parse_table(table)`.  The outer `Option` models exceptions
(`none` = raised); the inner one models Python's `None` result. -/
def parseTable (t : Table) : Option (Option TeamTable) :=
  match buildRows [] t.rows with
  | none => none
  | some tagged =>
    if (taggedDataRows tagged).isEmpty && (taggedHeaderRows tagged).isEmpty then
      some none
    else if tableWidth tagged = 0 then some none
    else if (assembleRecords (tableHeader tagged) (tableWidth tagged)
        (taggedDataRows tagged)).isEmpty then some none
    else
      some (some ⟨tableTitle t, tableHeader tagged,
        assembleRecords (tableHeader tagged) (tableWidth tagged)
          (taggedDataRows tagged)⟩)

/-- The fixed roster keyword set `TABLE_KEYWORDS`. -/
def TABLE_KEYWORDS : List String :=
  ["pokémon", "pokemon", "level", "moves", "move", "ability", "abilities",
   "item", "items"]

/-- All `<th>` cell texts of a table, in document order
(`table.find_all("th")`). -/
def headerCellTexts (t : Table) : List String :=
  (t.rows.map (fun row => (row.filter (fun cl => cl.isHeader)).map Cell.text)).flatten

/-- `_is_team_table(table)`. -/
def isTeamTable (t : Table) : Bool :=
  if t.classes.any (fun cls => pyIn "navbox" cls) then false
  else
    let headerText := joinSep " " ((headerCellTexts t).map pyLower)
    if headerText = "" then false
    else TABLE_KEYWORDS.any (fun kw => pyIn kw headerText)

/-- Remove every occurrence of `"[edit]"` (`title.replace("[edit]", "")`),
fuelled by the string length (each step consumes at least one
character). -/
def stripEditGo : Nat → List Char → List Char
  | 0, cs => cs
  | _ + 1, [] => []
  | n + 1, '[' :: 'e' :: 'd' :: 'i' :: 't' :: ']' :: rest => stripEditGo n rest
  | n + 1, c :: rest => c :: stripEditGo n rest

/-- `_normalize_heading(heading)` applied to the heading's
`get_text(" ", strip=True)` output. -/
def normalizeHeading (raw : String) : String :=
  cleanText ⟨stripEditGo raw.data.length raw.data⟩

example : normalizeHeading "Pokémon[edit]" = "Pokémon" := by decide
example : isTeamTable ⟨[], none, [[⟨true, "Pokémon", none, none⟩, ⟨true, "Level", none, none⟩]]⟩ = true := by decide
example : isTeamTable ⟨["navbox-inner"], none, [[⟨true, "Level", none, none⟩]]⟩ = false := by decide
example : isTeamTable ⟨[], none, [[⟨false, "Level", none, none⟩]]⟩ = false := by decide
example :
    parseTable ⟨[], none,
      [[⟨true, "Pokémon", none, none⟩, ⟨true, "Level", none, none⟩],
       [⟨false, "Pidgey", none, none⟩, ⟨false, "7", none, none⟩]]⟩ =
      some (some ⟨none, ["Pokémon", "Level"],
        [[("Pokémon", "Pidgey"), ("Level", "7")]]⟩) := by decide

/-! ## `extract_sections` -/

/-- A direct child of the `.mw-parser-output` container as the walk in
`extract_sections` distinguishes them: a bare text node
(`NavigableString`, skipped), a heading tag `h{level}` carrying its
`get_text(" ", strip=True)` output, a `<table>`, or any other tag
(skipped). -/
inductive Element where
  | textNode : Element
  | heading (level : Nat) (raw : String) : Element
  | table (t : Table) : Element
  | other : Element
deriving DecidableEq, Repr

/-- One output group: `{"path": list(path), "tables": [...]}`
(tables kept as parsed `TeamTable`s; `to_dict` only reshapes them). -/
structure Section where
  path : List String
  tables : List TeamTable
deriving DecidableEq, Repr

/-- The `sections` dict keyed by heading path, in insertion order. -/
abbrev Sections := List (List String × List TeamTable)

/-- `sections.setdefault(path, {...})["tables"].append(table)`. -/
def setdefaultAppend (secs : Sections) (key : List String) (tt : TeamTable) :
    Sections :=
  match secs with
  | [] => [(key, [tt])]
  | (k, ts) :: rest =>
    if k = key then (k, ts ++ [tt]) :: rest
    else (k, ts) :: setdefaultAppend rest key tt

/-- Association-list lookup for the sections dict. -/
def alistFind (secs : Sections) (key : List String) : Option (List TeamTable) :=
  match secs with
  | [] => none
  | (k, ts) :: rest => if k = key then some ts else alistFind rest key

/-- The walker state: the accumulated sections dict and the heading
stack.  The stack is stored innermost-first (Lean list head = Python
list tail), so Python's `stack.append`/`stack.pop` act on the head. -/
structure ExtState where
  sections : Sections
  stack : List (Nat × String)
deriving DecidableEq, Repr

/-- The gating condition
`any(level <= 2 and "pokémon" in title.lower() for level, title in stack)`. -/
def gateOk (stack : List (Nat × String)) : Bool :=
  stack.any (fun p => p.1 ≤ 2 && pyIn "pokémon" (pyLower p.2))

/-- One iteration of the `for element in container.children` loop.
`HEADING_TAGS = {"h2", ..., "h5"}`, so a heading tag outside levels
2–5 falls through to the `element.name != "table"` `continue`, like
any other element. -/
def stepElement (st : ExtState) (e : Element) : Option ExtState :=
  match e with
  | .textNode => some st
  | .other => some st
  | .heading lv raw =>
    if 2 ≤ lv && lv ≤ 5 then
      let title := normalizeHeading raw
      if title = "" then some st
      else
        some { st with
          stack := (lv, title) :: st.stack.dropWhile (fun p => lv ≤ p.1) }
    else some st
  | .table t =>
    if st.stack.isEmpty then some st
    else if !gateOk st.stack then some st
    else if !isTeamTable t then some st
    else
      match parseTable t with
      | none => none
      | some none => some st
      | some (some tt) =>
        let path := (st.stack.map (fun p => p.2)).reverse
        some { st with sections := setdefaultAppend st.sections path tt }

/-- Three-way comparison of naturals. -/
def cmpNat (a b : Nat) : Ordering :=
  if a < b then .lt else if b < a then .gt else .eq

/-- Python compares strings code point by code point. -/
def cmpChar (a b : Char) : Ordering := cmpNat a.toNat b.toNat

/-- Lexicographic comparison of code-point lists (Python `str` order). -/
def cmpChars : List Char → List Char → Ordering
  | [], [] => .eq
  | [], _ :: _ => .lt
  | _ :: _, [] => .gt
  | a :: as, b :: bs =>
    match cmpChar a b with
    | .eq => cmpChars as bs
    | o => o

/-- Python `str` comparison. -/
def cmpStr (a b : String) : Ordering := cmpChars a.data b.data

/-- Python tuple-of-`str` comparison: lexicographic, a proper head
sequence sorting first. -/
def cmpPath : List String → List String → Ordering
  | [], [] => .eq
  | [], _ :: _ => .lt
  | _ :: _, [] => .gt
  | a :: as, b :: bs =>
    match cmpStr a b with
    | .eq => cmpPath as bs
    | o => o

/-- `a ≤ b` under `cmpPath` (used to model `sorted`). -/
def pathLe (a b : List String) : Bool :=
  match cmpPath a b with
  | .gt => false
  | _ => true

/-- Insert into a `pathLe`-sorted list. -/
def insertSorted (x : List String) : List (List String) → List (List String)
  | [] => [x]
  | y :: ys => if pathLe x y then x :: y :: ys else y :: insertSorted x ys

/-- Insertion sort by `pathLe`: the unique ascending arrangement of the
(distinct) keys, which is what Python's `sorted(sections.keys())`
returns. -/
def sortPaths (l : List (List String)) : List (List String) :=
  l.foldr insertSorted []

/-- `extract_sections(html)` on the modelled child sequence of the
container: walk the children, then emit the groups in sorted path
order (`ordered_paths = sorted(sections.keys())`). -/
def extractSections (elements : List Element) : Option (List Section) :=
  match elements.foldlM stepElement ⟨[], []⟩ with
  | none => none
  | some st =>
    let ordered := sortPaths (st.sections.map (fun p => p.1))
    some (ordered.filterMap
      (fun k => (alistFind st.sections k).map (fun ts => ⟨k, ts⟩)))

example :
    extractSections
      [Element.heading 2 "Pokémon",
       Element.heading 3 "Blue",
       Element.table ⟨[], none,
        [[⟨true, "Pokémon", none, none⟩, ⟨true, "Level", none, none⟩],
         [⟨false, "Pidgey", none, none⟩, ⟨false, "7", none, none⟩]]⟩] =
      some [⟨["Pokémon", "Blue"],
        [⟨none, ["Pokémon", "Level"],
          [[("Pokémon", "Pidgey"), ("Level", "7")]]⟩]⟩] := by decide

example : sortPaths [["Pokémon", "Z"], ["Pokémon", "A"]] =
    [["Pokémon", "A"], ["Pokémon", "Z"]] := by decide

/-! ## Claim C2 -/

/-- C2 counterexample: a `colspan` attribute of `"0"` is NOT treated as
`1`.  `"0"` is a truthy Python string, so `int("0" or 1) = 0` and the
cell occupies zero columns, while a missing attribute yields `["A"]`.
The two results differ, refuting "both are treated exactly as the
value 1". -/
theorem colspanZero_differs_from_missing :
    parseRow [⟨false, "A", some "0", none⟩] [] = some ([], []) ∧
    parseRow [⟨false, "A", none, none⟩] [] = some (["A"], []) ∧
    some (([] : List String), ([] : SpanMap)) ≠ some (["A"], ([] : SpanMap)) := by
  refine ⟨by decide, by decide, by decide⟩

/-- C2 amended: a missing `rowspan` or `colspan` attribute is treated
exactly as the value `1`, and a `rowspan` of zero behaves exactly as
`1` (no propagation is registered either way); but a `colspan` of zero
makes the cell occupy zero columns — processing such a cell only
flushes the pending spans at the cursor and contributes nothing
else. -/
theorem span_defaults_amended :
    (∀ (b : Bool) (t : String) (cs : Option String)
        (st : List String × SpanMap × Int),
      cellStep st ⟨b, t, cs, some "0"⟩ = cellStep st ⟨b, t, cs, some "1"⟩) ∧
    (∀ (b : Bool) (t : String) (cs : Option String)
        (st : List String × SpanMap × Int),
      cellStep st ⟨b, t, cs, none⟩ = cellStep st ⟨b, t, cs, some "1"⟩) ∧
    (∀ (b : Bool) (t : String) (rs : Option String)
        (st : List String × SpanMap × Int),
      cellStep st ⟨b, t, none, rs⟩ = cellStep st ⟨b, t, some "1", rs⟩) ∧
    (∀ (b : Bool) (t : String) (rs : Option String) (r : Int)
        (st : List String × SpanMap × Int),
      spanAttr rs = some r →
      cellStep st ⟨b, t, some "0", rs⟩ =
        some (consumeSpans st.1 st.2.1 st.2.2)) := by
  have h0 : spanAttr (some "0") = some 0 := rfl
  have h1 : spanAttr (some "1") = some 1 := rfl
  have hn : spanAttr none = some 1 := rfl
  refine ⟨?_, ?_, ?_, ?_⟩
  · intro b t cs st
    rcases hcs : consumeSpans st.1 st.2.1 st.2.2 with ⟨v1, m1, c1⟩
    simp only [cellStep, hcs, h0, h1]
    cases spanAttr cs with
    | none => rfl
    | some k => norm_num
  · intro b t cs st
    rcases hcs : consumeSpans st.1 st.2.1 st.2.2 with ⟨v1, m1, c1⟩
    simp only [cellStep, hcs, hn, h1]
  · intro b t rs st
    rcases hcs : consumeSpans st.1 st.2.1 st.2.2 with ⟨v1, m1, c1⟩
    simp only [cellStep, hcs, hn, h1]
  · intro b t rs r st hr
    rcases hcs : consumeSpans st.1 st.2.1 st.2.2 with ⟨v1, m1, c1⟩
    simp only [cellStep, hcs, h0, hr]
    norm_num

/-- C2 amended, witnessed at a concrete input. -/
theorem span_defaults_amended_witness :
    cellStep (([], [], 0) : List String × SpanMap × Int)
        ⟨false, "A", some "0", some "2"⟩ =
      some (consumeSpans [] [] 0) :=
  span_defaults_amended.2.2.2 false "A" (some "2") 2 ([], [], 0) rfl

/-! ## Claim C4 -/

theorem get?_enumFrom (l : List α) (n i : Nat) :
    (l.enumFrom n).get? i = (l.get? i).map (fun x => (n + i, x)) := by
  induction l generalizing n i with
  | nil => simp [List.enumFrom]
  | cons hd tl ih =>
    cases i with
    | zero => simp [List.enumFrom]
    | succ j =>
      simp only [List.enumFrom, List.get?, ih tl.length.succ]
      rw [ih]
      cases tl.get? j <;> simp <;> omega

theorem get?_enum (l : List α) (i : Nat) :
    l.enum.get? i = (l.get? i).map (fun x => (i, x)) := by
  have := get?_enumFrom l 0 i
  simpa [List.enum] using this

/-- C4: the Header Merger combines rows position-by-position exactly as
specified — when the cleaned running value and cleaned new value are
both non-empty and the new value is not a case-insensitive substring of
the running one, the result is `"{running} - {new}"`, otherwise the
non-empty one wins with the new value winning ties; the two
worked examples hold; and a position still empty after merging becomes
the `"Column {1-based index}"` placeholder. -/
theorem header_merge_spec :
    combineHeaders [["Type", ""], ["", "Fire"]] = ["Type", "Fire"] ∧
    combineHeaders [["Move", "Move"], ["1", "2"]] = ["Move - 1", "Move - 2"] ∧
    (∀ top bottom : String,
      mergeCell top bottom =
        if cleanText top ≠ "" ∧ cleanText bottom ≠ "" ∧
            pyIn (pyLower (cleanText bottom)) (pyLower (cleanText top)) = false
        then cleanText top ++ " - " ++ cleanText bottom
        else if cleanText bottom ≠ "" then cleanText bottom else cleanText top) ∧
    (∀ (rows : List (List String)) (i : Nat),
      (combineCore rows).get? i = some "" →
      (combineHeaders rows).get? i = some (placeholderCol i)) := by
  refine ⟨by decide, by decide, ?_, ?_⟩
  · intro top bottom
    by_cases h1 : cleanText top = "" <;>
      by_cases h2 : cleanText bottom = "" <;>
        by_cases h3 : pyIn (pyLower (cleanText bottom)) (pyLower (cleanText top)) = true <;>
          simp [mergeCell, h1, h2, h3]
  · intro rows i h
    simp only [combineHeaders, List.get?_map, get?_enum, h, Option.map_some]
    rfl

/-- C4, witnessed at a concrete input: position 1 of
`[["Type"], ["x", ""]]` merges to empty and becomes `"Column 2"`. -/
theorem header_merge_spec_witness :
    (combineHeaders [["Type"], ["x", ""]]).get? 1 = some (placeholderCol 1) :=
  header_merge_spec.2.2.2 [["Type"], ["x", ""]] 1 (by decide)

/-! ## Claim C9 -/

/-- The Table Classifier as the spec words it: reject navigation
boxes, reject tables with no header cells at all, and otherwise accept
iff the combined lowercase header text contains a roster keyword. -/
def isTeamTableSpec (t : Table) : Bool :=
  if t.classes.any (fun cls => pyIn "navbox" cls) then false
  else if (headerCellTexts t).isEmpty then false
  else
    TABLE_KEYWORDS.any
      (fun kw => pyIn kw (joinSep " " ((headerCellTexts t).map pyLower)))

theorem joinSep_nil (sep : String) : joinSep sep [] = "" := rfl

/-- C9: `_is_team_table` agrees with the spec's contract on every
table — navigation boxes and header-less tables are rejected, and
otherwise acceptance is exactly keyword containment in the combined
lowercase header text. -/
theorem classifier_matches_spec (t : Table) :
    isTeamTable t = isTeamTableSpec t := by
  by_cases hn : t.classes.any (fun cls => pyIn "navbox" cls)
  · simp [isTeamTable, isTeamTableSpec, hn]
  · by_cases hj : joinSep " " ((headerCellTexts t).map pyLower) = ""
    · cases hc : headerCellTexts t with
      | nil =>
        simp [isTeamTable, isTeamTableSpec, hn, hc]
        all_goals decide
      | cons x xs =>
        have hne : (headerCellTexts t).isEmpty = false := by rw [hc]; rfl
        have hany : TABLE_KEYWORDS.any
            (fun kw => pyIn kw (joinSep " " ((headerCellTexts t).map pyLower))) =
              false := by
          rw [hj]; decide
        simp [isTeamTable, isTeamTableSpec, hn, hj, hne, hany]
        all_goals decide
    · cases hc : headerCellTexts t with
      | nil =>
        exfalso
        rw [hc] at hj
        exact hj rfl
      | cons x xs =>
        have hne : (headerCellTexts t).isEmpty = false := by rw [hc]; rfl
        simp [isTeamTable, isTeamTableSpec, hn, hj, hne]

/-! ## Claim C1 -/

/-- A cell whose two span attributes survive `int()`: absent, empty, or
an integer-parseable string. -/
def wellFormedCell (cl : Cell) : Prop :=
  (spanAttr cl.colspan).isSome ∧ (spanAttr cl.rowspan).isSome

instance (cl : Cell) : Decidable (wellFormedCell cl) := by
  unfold wellFormedCell
  infer_instance

/-- Every cell of every row of the table is well formed. -/
def wellFormedTable (t : Table) : Prop :=
  ∀ row ∈ t.rows, ∀ cl ∈ row, wellFormedCell cl

instance (t : Table) : Decidable (wellFormedTable t) := by
  unfold wellFormedTable
  infer_instance

theorem cellStep_isSome (st : List String × SpanMap × Int) (cl : Cell)
    (h : wellFormedCell cl) : (cellStep st cl).isSome := by
  obtain ⟨h1, h2⟩ := h
  rcases hcs : consumeSpans st.1 st.2.1 st.2.2 with ⟨v1, m1, c1⟩
  rcases hc : spanAttr cl.colspan with _ | k
  · rw [hc] at h1; simp at h1
  rcases hr : spanAttr cl.rowspan with _ | r
  · rw [hr] at h2; simp at h2
  simp [cellStep, hcs, hc, hr]

theorem foldlM_cellStep_isSome (cells : List Cell)
    (st : List String × SpanMap × Int)
    (h : ∀ cl ∈ cells, wellFormedCell cl) :
    (cells.foldlM cellStep st).isSome := by
  induction cells generalizing st with
  | nil => simp [List.foldlM]
  | cons hd tl ih =>
    have hhd := h hd (List.mem_cons_self hd tl)
    rcases hstep : cellStep st hd with _ | st'
    · have hiss := cellStep_isSome st hd hhd
      rw [hstep] at hiss
      simp at hiss
    · simp only [List.foldlM_cons, hstep, Option.bind_some]
      exact ih st' (fun cl hcl => h cl (List.mem_cons_of_mem hd hcl))

theorem parseRow_isSome (cells : List Cell) (m : SpanMap)
    (h : ∀ cl ∈ cells, wellFormedCell cl) :
    (parseRow cells m).isSome := by
  have hf := foldlM_cellStep_isSome cells (consumeSpans [] m 0) h
  rcases hfold : cells.foldlM cellStep (consumeSpans [] m 0) with _ | res
  · rw [hfold] at hf; simp at hf
  · rcases res with ⟨vals, m', c⟩
    rcases hcs : consumeSpans vals m' c with ⟨v2, m2, c2⟩
    simp [parseRow, hfold, hcs]

theorem buildRows_isSome (rows : List (List Cell)) (m : SpanMap)
    (h : ∀ row ∈ rows, ∀ cl ∈ row, wellFormedCell cl) :
    (buildRows m rows).isSome := by
  induction rows generalizing m with
  | nil => simp [buildRows]
  | cons hd tl ih =>
    by_cases he : hd.isEmpty
    · simp only [buildRows, he, if_pos rfl]
      exact ih m (fun row hrow => h row (List.mem_cons_of_mem hd hrow))
    · have hp := parseRow_isSome hd m (h hd (List.mem_cons_self hd tl))
      rcases hrow : parseRow hd m with _ | res
      · rw [hrow] at hp; simp at hp
      · rcases res with ⟨vals, m'⟩
        have htl := ih m' (fun row hrow => h row (List.mem_cons_of_mem hd hrow))
        rcases hb : buildRows m' tl with _ | out
        · rw [hb] at htl; simp at htl
        · simp only [buildRows, he, Bool.false_eq_true, if_false, hrow, hb]
          split <;> simp

theorem parseTable_isSome (t : Table) (h : wellFormedTable t) :
    (parseTable t).isSome := by
  have hb := buildRows_isSome t.rows [] h
  rcases hrows : buildRows [] t.rows with _ | tagged
  · rw [hrows] at hb; simp at hb
  · simp only [parseTable, hrows]
    repeat' split
    all_goals simp

theorem stepElement_isSome (st : ExtState) (e : Element)
    (h : ∀ t, e = Element.table t → wellFormedTable t) :
    (stepElement st e).isSome := by
  cases e with
  | textNode => simp [stepElement]
  | other => simp [stepElement]
  | heading lv raw =>
    simp only [stepElement]
    split <;> (try split) <;> simp
  | table t =>
    have hwf := h t rfl
    simp only [stepElement]
    by_cases h1 : st.stack.isEmpty
    · simp [h1]
    · simp only [h1, Bool.false_eq_true, if_false]
      by_cases h2 : gateOk st.stack
      · simp only [h2, Bool.not_true, Bool.false_eq_true, if_false]
        by_cases h3 : isTeamTable t
        · simp only [h3, Bool.not_true, Bool.false_eq_true, if_false]
          have := parseTable_isSome t hwf
          rcases hp : parseTable t with _ | r
          · rw [hp] at this; simp at this
          · rcases r with _ | tt <;> simp [hp]
        · simp [h3]
      · simp [h2]

/-- C1 counterexample: the extraction core can raise.  A `colspan`
attribute that is not an integer string reaches `int()` and raises
`ValueError`, from `_parse_row` through `parse_table` up through
`extract_sections` (modelled by `none`). -/
theorem extraction_raises_on_bad_span :
    parseRow [⟨false, "Pidgey", some "x", none⟩] [] = none ∧
    parseTable ⟨[], none,
      [[⟨true, "Pokémon", none, none⟩, ⟨true, "Level", none, none⟩],
       [⟨false, "Pidgey", some "x", none⟩, ⟨false, "7", none, none⟩]]⟩ = none ∧
    extractSections
      [Element.heading 2 "Pokémon",
       Element.table ⟨[], none,
        [[⟨true, "Pokémon", none, none⟩, ⟨true, "Level", none, none⟩],
         [⟨false, "Pidgey", some "x", none⟩, ⟨false, "7", none, none⟩]]⟩] =
      none := by
  refine ⟨by decide, by decide, by decide⟩

/-- C1 amended: the extraction core never raises on input whose
rowspan/colspan attribute values are all missing, empty, or
integer-parseable strings (the only raise in the core is `int()` on a
malformed span attribute); on such input `extract_sections` always
returns a result, degrading by omitting data instead of failing. -/
theorem extraction_total_on_wellformed_spans (elements : List Element)
    (h : ∀ t, Element.table t ∈ elements → wellFormedTable t) :
    (extractSections elements).isSome := by
  suffices hfold : ∀ st : ExtState, (elements.foldlM stepElement st).isSome by
    rcases hf : elements.foldlM stepElement (⟨[], []⟩ : ExtState) with _ | st
    · have := hfold ⟨[], []⟩
      rw [hf] at this
      simp at this
    · simp [extractSections, hf]
  intro st
  induction elements generalizing st with
  | nil => simp [List.foldlM]
  | cons hd tl ih =>
    have hh := stepElement_isSome st hd
      (fun t ht => h t (ht ▸ List.mem_cons_self hd tl))
    rcases hstep : stepElement st hd with _ | st'
    · rw [hstep] at hh; simp at hh
    · simp only [List.foldlM_cons, hstep, Option.bind_some]
      exact ih (fun t ht => h t (List.mem_cons_of_mem hd ht)) st'

/-- C1 amended, witnessed on a concrete well-formed document. -/
theorem extraction_total_witness :
    (extractSections
      [Element.heading 2 "Pokémon",
       Element.table ⟨[], none,
        [[⟨true, "Pokémon", none, none⟩, ⟨true, "Level", none, none⟩],
         [⟨false, "Pidgey", some "2", some ""⟩,
          ⟨false, "7", none, none⟩]]⟩]).isSome :=
  extraction_total_on_wellformed_spans _ (by
    intro t ht
    simp only [List.mem_cons, List.not_mem_nil, or_false] at ht
    rcases ht with h | h
    · simp at h
    · simp only [Element.table.injEq] at h
      subst h
      decide)

/-! ## Claim C10 -/

theorem assembleRecords_nil (header : List String) (width : Nat) :
    assembleRecords header width [] = [] := rfl

/-- C10: `parse_table` never returns an empty table — a successfully
parsed table has at least one record; a table whose retained rows are
all header-classified yields `None`; and whenever the record assembly
over the retained data rows produces nothing, the result is `None`. -/
theorem parseTable_none_without_records :
    (∀ (t : Table) (tt : TeamTable),
      parseTable t = some (some tt) → tt.rows.isEmpty = false) ∧
    (∀ (t : Table) (tagged : List TaggedRow),
      buildRows [] t.rows = some tagged →
      (tagged.filter (fun r => !r.1)).isEmpty = true →
      parseTable t = some none) ∧
    (∀ (t : Table) (tagged : List TaggedRow),
      buildRows [] t.rows = some tagged →
      assembleRecords (tableHeader tagged) (tableWidth tagged)
        (taggedDataRows tagged) = [] →
      parseTable t = some none) := by
  refine ⟨?_, ?_, ?_⟩
  · intro t tt h
    simp only [parseTable] at h
    split at h
    · exact absurd h (by simp)
    · split at h
      · exact absurd h (by simp)
      · split at h
        · exact absurd h (by simp)
        · split at h
          · exact absurd h (by simp)
          · rename_i hrec
            simp only [Option.some.injEq] at h
            rw [← h]
            simpa using hrec
  · intro t tagged hb hdat
    have hdat' : taggedDataRows tagged = [] := by
      rw [List.isEmpty_iff] at hdat
      simp [taggedDataRows, hdat]
    have hrec : assembleRecords (tableHeader tagged) (tableWidth tagged)
        (taggedDataRows tagged) = [] := by
      rw [hdat']
      rfl
    simp only [parseTable, hb, hrec]
    split
    · rfl
    · split
      · rfl
      · simp
  · intro t tagged hb hrec
    simp only [parseTable, hb, hrec]
    split
    · rfl
    · split
      · rfl
      · simp

/-- C10, witnessed: a header-only table parses to `None` rather than an
empty table. -/
theorem parseTable_none_witness :
    parseTable ⟨[], none,
      [[⟨true, "Pokémon", none, none⟩, ⟨true, "Level", none, none⟩]]⟩ =
      some none :=
  parseTable_none_without_records.2.1 _
    [(true, ["Pokémon", "Level"])] (by decide) (by decide)

/-! ## Claim C7 -/

theorem dictLookup_insert_self (d : Record) (k v : String) :
    dictLookup (dictInsert d k v) k = some v := by
  induction d with
  | nil => simp [dictInsert, dictLookup]
  | cons hd tl ih =>
    obtain ⟨k', v'⟩ := hd
    by_cases h : k' = k <;> simp [dictInsert, dictLookup, h, ih]

theorem dictLookup_insert_ne (d : Record) (k k' v : String) (h : k' ≠ k) :
    dictLookup (dictInsert d k v) k' = dictLookup d k' := by
  induction d with
  | nil => simp [dictInsert, dictLookup, Ne.symm h]
  | cons hd tl ih =>
    obtain ⟨k0, v0⟩ := hd
    by_cases h0 : k0 = k
    · subst h0
      simp [dictInsert, dictLookup, Ne.symm h]
    · by_cases h1 : k0 = k'
      · subst h1
        simp [dictInsert, dictLookup, h0]
      · simp [dictInsert, dictLookup, h0, h1, ih]

theorem dictLookup_insertList (idxs : List Nat) (d : Record)
    (f g : Nat → String) (key : String)
    (h : ∀ i ∈ idxs, f i ≠ key) :
    dictLookup (idxs.foldl (fun acc i => dictInsert acc (f i) (g i)) d) key =
      dictLookup d key := by
  induction idxs generalizing d with
  | nil => rfl
  | cons hd tl ih =>
    simp only [List.foldl_cons]
    rw [ih _ (fun i hi => h i (List.mem_cons_of_mem hd hi)),
      dictLookup_insert_ne _ _ _ _ (Ne.symm (h hd (List.mem_cons_self hd tl)))]

theorem assembleRecords_loop (header : List String) (width : Nat)
    (rows : List (List String)) (acc : List Record) :
    rows.foldl
      (fun acc row =>
        let entry := mkEntry header width row
        if entry.any (fun kv => kv.2 ≠ "") then acc ++ [entry] else acc)
      acc =
    acc ++ (rows.map (mkEntry header width)).filter
      (fun e => e.any (fun kv => kv.2 ≠ "")) := by
  induction rows generalizing acc with
  | nil => simp
  | cons hd tl ih =>
    simp only [ne_eq, decide_not] at ih ⊢
    simp only [List.foldl_cons, List.map_cons, List.filter_cons]
    by_cases h : (mkEntry header width hd).any (fun kv => !decide (kv.2 = "")) <;>
      simp [h, ih]

/-- C7: the Record Assembler produces one record per data row by
pairing labels with the row padded (or truncated) to the given width —
it is a total function, so width mismatches never raise; a record whose
values are all empty is dropped (that and nothing else); and when two
columns share a label, the value of the last such column wins in the
produced mapping. -/
theorem record_assembly_spec :
    (∀ (header : List String) (width : Nat) (rows : List (List String)),
      assembleRecords header width rows =
        (rows.map (mkEntry header width)).filter
          (fun e => e.any (fun kv => kv.2 ≠ ""))) ∧
    (∀ (header : List String) (width : Nat) (row : List String) (j : Nat),
      j < width →
      (∀ l, j < l → l < width → header.getD l "" ≠ header.getD j "") →
      dictLookup (mkEntry header width row) (header.getD j "") =
        some ((padTo width row).getD j "")) := by
  constructor
  · intro header width rows
    exact assembleRecords_loop header width rows []
  · intro header width row j hj hlast
    have hsplit : List.range width =
        List.range (j + 1) ++ List.range' (j + 1) (width - (j + 1)) := by
      have h1 := List.range'_append 0 (j + 1) (width - (j + 1)) 1
      simp only [Nat.zero_add, Nat.one_mul] at h1
      rw [List.range_eq_range', List.range_eq_range', h1]
      congr 1
      omega
    simp only [mkEntry, hsplit, List.foldl_append]
    rw [dictLookup_insertList _ _ _ _ _ ?later]
    case later =>
      intro l hl
      have hmem := List.mem_range'_1.mp hl
      exact hlast l (by omega) (by omega)
    rw [List.range_succ, List.foldl_append]
    simp only [List.foldl_cons, List.foldl_nil]
    exact dictLookup_insert_self _ _ _

/-- C7, witnessed: with duplicate label `"a"` in columns 0 and 1, the
record maps `"a"` to the value of the later column. -/
theorem record_assembly_witness :
    dictLookup (mkEntry ["a", "a"] 2 ["1", "2"]) (["a", "a"].getD 1 "") =
      some ((padTo 2 ["1", "2"]).getD 1 "") :=
  record_assembly_spec.2 ["a", "a"] 2 ["1", "2"] 1 (by decide)
    (fun l h1 h2 => by omega)

/-! ## Claim C8 -/

theorem foldl_max_init (l : List Nat) (a : Nat) : a ≤ l.foldl Nat.max a := by
  induction l generalizing a with
  | nil => simp
  | cons hd tl ih => exact le_trans (Nat.le_max_left a hd) (ih _)

theorem foldl_max_shift (l : List Nat) (a : Nat) :
    l.foldl Nat.max a = Nat.max a (l.foldl Nat.max 0) := by
  induction l generalizing a with
  | nil => simp
  | cons hd tl ih =>
    simp only [List.foldl_cons]
    rw [ih (Nat.max a hd), ih (Nat.max 0 hd)]
    simp only [Nat.max_def]
    split_ifs <;> omega

theorem listMax_cons (x : Nat) (l : List Nat) :
    listMax (x :: l) = Nat.max x (listMax l) := by
  simp only [listMax, List.foldl_cons, Nat.zero_max]
  exact foldl_max_shift l x

theorem le_listMax (l : List Nat) (x : Nat) (h : x ∈ l) : x ≤ listMax l := by
  induction l with
  | nil => simp at h
  | cons hd tl ih =>
    rw [listMax_cons]
    rcases List.mem_cons.mp h with h | h
    · exact h ▸ Nat.le_max_left _ _
    · exact le_trans (ih h) (Nat.le_max_right _ _)

theorem listMax_partition (p : TaggedRow → Bool) (l : List TaggedRow)
    (f : TaggedRow → Nat) :
    listMax (l.map f) =
      Nat.max (listMax ((l.filter p).map f))
        (listMax ((l.filter (fun x => !p x)).map f)) := by
  induction l with
  | nil => simp [listMax]
  | cons hd tl ih =>
    by_cases h : p hd
    · simp only [List.map_cons, List.filter_cons, h, if_true, ite_true,
        Bool.not_true, Bool.false_eq_true, if_false, ite_false, listMax_cons, ih]
      simp only [Nat.max_def]
      split_ifs <;> omega
    · simp only [List.map_cons, List.filter_cons, h, Bool.false_eq_true,
        if_false, ite_false, Bool.not_false, if_true, ite_true, listMax_cons, ih]
      simp only [Nat.max_def]
      split_ifs <;> omega

theorem padTo_length (width : Nat) (row : List String) :
    (padTo width row).length = row.length + (width - row.length) := by
  simp [padTo]

theorem mergeRows_length (a b : List String) :
    (mergeRows a b).length = Nat.min a.length b.length := by
  simp [mergeRows]

theorem foldl_mergeRows_length (l : List (List String)) (acc : List String)
    (w : Nat) (hacc : acc.length = w) (hl : ∀ x ∈ l, x.length = w) :
    (l.foldl mergeRows acc).length = w := by
  induction l generalizing acc with
  | nil => exact hacc
  | cons hd tl ih =>
    simp only [List.foldl_cons]
    refine ih (mergeRows acc hd) ?_ (fun x hx => hl x (List.mem_cons_of_mem hd hx))
    rw [mergeRows_length, hacc, hl hd (List.mem_cons_self hd tl)]
    simp [Nat.min_def]

theorem combineCore_length (rows : List (List String)) (h : rows ≠ []) :
    (combineCore rows).length = listMax (rows.map List.length) := by
  match rows with
  | r :: rest =>
    simp only [combineCore]
    have hall : ∀ x ∈ (r :: rest).map (padTo (listMax ((r :: rest).map List.length))),
        x.length = listMax ((r :: rest).map List.length) := by
      intro x hx
      rcases List.mem_map.mp hx with ⟨y, hy, rfl⟩
      have hle : y.length ≤ listMax ((r :: rest).map List.length) :=
        le_listMax _ _ (List.mem_map_of_mem List.length hy)
      rw [padTo_length]
      omega
    refine foldl_mergeRows_length _ _ _ ?_ ?_
    · exact hall _ (by simp [List.headD, List.mem_map])
    · intro x hx
      exact hall x (List.mem_of_mem_tail hx)

theorem combineHeaders_length (rows : List (List String)) :
    (combineHeaders rows).length = (combineCore rows).length := by
  simp [combineHeaders]

theorem normalizeColumns_length (cols : List String) (width : Nat) :
    (normalizeColumns cols width).length = width := by
  simp only [normalizeColumns, List.length_map, List.enum_length,
    List.length_append, List.length_take, List.length_range']
  omega

theorem tableHeader_length (tagged : List TaggedRow) :
    (tableHeader tagged).length = tableWidth tagged := by
  by_cases h : (combineHeaders (taggedHeaderRows tagged)).isEmpty
  · simp [tableHeader, h]
  · simp [tableHeader, h, normalizeColumns_length]

/-- C8: every successfully parsed table is rectangular — the column
label list has exactly the computed width, that width is the maximum
row length over all retained (header and data) rows, every data row is
no wider than it and right-pads exactly to it, and the records are
assembled from those padded rows. -/
theorem grid_rectangularity (t : Table) (tagged : List TaggedRow)
    (tt : TeamTable) (hb : buildRows [] t.rows = some tagged)
    (hp : parseTable t = some (some tt)) :
    tt.columns.length = tableWidth tagged ∧
    tableWidth tagged = listMax (tagged.map (fun r => r.2.length)) ∧
    (∀ row ∈ taggedDataRows tagged,
      row.length ≤ tableWidth tagged ∧
      (padTo (tableWidth tagged) row).length = tableWidth tagged) ∧
    tt.rows = assembleRecords tt.columns (tableWidth tagged)
      (taggedDataRows tagged) := by
  have hcols : tt.columns = tableHeader tagged ∧
      tt.rows = assembleRecords (tableHeader tagged) (tableWidth tagged)
        (taggedDataRows tagged) := by
    simp only [parseTable, hb] at hp
    split at hp
    · exact absurd hp (by simp)
    · split at hp
      · exact absurd hp (by simp)
      · split at hp
        · exact absurd hp (by simp)
        · simp only [Option.some.injEq] at hp
          rw [← hp]
          exact ⟨rfl, rfl⟩
  obtain ⟨hc, hr⟩ := hcols
  have hwidth : tableWidth tagged = listMax (tagged.map (fun r => r.2.length)) := by
    rw [listMax_partition (fun r => r.1) tagged (fun r => r.2.length)]
    simp only [tableWidth, taggedHeaderRows, taggedDataRows, List.map_map]
    by_cases hh : (tagged.filter (fun r => r.1)) = []
    · simp only [hh, List.map_nil, combineHeaders, combineCore, List.enum_nil,
        List.length_nil]
      rfl
    · rw [combineHeaders_length, combineCore_length _ (by
        intro hcontra
        exact hh (by simpa [List.map_eq_nil] using hcontra))]
      simp only [List.map_map]
      rfl
  refine ⟨?_, hwidth, ?_, ?_⟩
  · rw [hc, tableHeader_length]
  · intro row hrow
    have hle : row.length ≤ tableWidth tagged := by
      have h1 : row.length ∈ (taggedDataRows tagged).map List.length :=
        List.mem_map_of_mem List.length hrow
      have h2 := le_listMax _ _ h1
      simp only [tableWidth]
      exact le_trans h2 (Nat.le_max_right _ _)
    exact ⟨hle, by rw [padTo_length]; omega⟩
  · rw [hr, hc]

/-- C8, witnessed on a concrete ragged table (data row shorter than the
header). -/
theorem grid_rectangularity_witness :
    (⟨none, ["Pokémon", "Level"],
        [[("Pokémon", "Pidgey"), ("Level", "")]]⟩ : TeamTable).columns.length =
        tableWidth [(true, ["Pokémon", "Level"]), (false, ["Pidgey"])] ∧
    tableWidth [(true, ["Pokémon", "Level"]), (false, ["Pidgey"])] =
      listMax ([((true : Bool), ["Pokémon", "Level"]),
        ((false : Bool), ["Pidgey"])].map (fun r => r.2.length)) ∧
    (∀ row ∈ taggedDataRows [(true, ["Pokémon", "Level"]), (false, ["Pidgey"])],
      row.length ≤ tableWidth [(true, ["Pokémon", "Level"]), (false, ["Pidgey"])] ∧
      (padTo (tableWidth [(true, ["Pokémon", "Level"]), (false, ["Pidgey"])])
          row).length =
        tableWidth [(true, ["Pokémon", "Level"]), (false, ["Pidgey"])]) ∧
    (⟨none, ["Pokémon", "Level"],
        [[("Pokémon", "Pidgey"), ("Level", "")]]⟩ : TeamTable).rows =
      assembleRecords
        (⟨none, ["Pokémon", "Level"],
          [[("Pokémon", "Pidgey"), ("Level", "")]]⟩ : TeamTable).columns
        (tableWidth [(true, ["Pokémon", "Level"]), (false, ["Pidgey"])])
        (taggedDataRows [(true, ["Pokémon", "Level"]), (false, ["Pidgey"])]) :=
  grid_rectangularity
    ⟨[], none,
      [[⟨true, "Pokémon", none, none⟩, ⟨true, "Level", none, none⟩],
       [⟨false, "Pidgey", none, none⟩]]⟩
    [(true, ["Pokémon", "Level"]), (false, ["Pidgey"])]
    ⟨none, ["Pokémon", "Level"], [[("Pokémon", "Pidgey"), ("Level", "")]]⟩
    (by decide) (by decide)

/-! ## Claim C5 -/

/-- The heading-stack well-formedness that the walk maintains: levels
strictly decrease from the top of the stack (list head) down. -/
def stackOrdered (stack : List (Nat × String)) : Prop :=
  List.Pairwise (fun a b => b.1 < a.1) stack

theorem stackOrdered_nil : stackOrdered [] := List.Pairwise.nil

instance (stack : List (Nat × String)) : Decidable (stackOrdered stack) := by
  unfold stackOrdered
  infer_instance

theorem dropWhile_eq_filter_of_ordered (stack : List (Nat × String)) (lv : Nat)
    (h : stackOrdered stack) :
    stack.dropWhile (fun p => lv ≤ p.1) = stack.filter (fun p => p.1 < lv) := by
  induction stack with
  | nil => rfl
  | cons hd tl ih =>
    rcases List.pairwise_cons.mp h with ⟨hhd, htl⟩
    by_cases hle : lv ≤ hd.1
    · have h2 : ¬ hd.1 < lv := by omega
      simp only [List.dropWhile_cons, List.filter_cons, hle, h2, decide_True,
        decide_False, if_true, if_false, ite_true, ite_false]
      exact ih htl
    · have h2 : hd.1 < lv := by omega
      simp only [List.dropWhile_cons, List.filter_cons, hle, h2, decide_True,
        decide_False, if_true, if_false, ite_true, ite_false,
        Bool.false_eq_true]
      congr 1
      symm
      rw [List.filter_eq_self]
      intro p hp
      have h3 := hhd p hp
      simp only [decide_eq_true_eq]
      omega

/-- C5: the Section Path Tracker behaves exactly as specified.
On an ordered stack, a heading of level `L` with nonempty normalized
title pops every entry of level `≥ L` and pushes `(L, title)`; a
heading with empty normalized title changes nothing; a table under an
empty stack changes nothing; whenever a table is recorded, it is
recorded under the stack's titles outermost-first; every step keeps
the stack ordered; and on the spec's example the table receives
`["Pokémon", "Red and Blue", "Gym Leaders"]` while a subsequent H3
closes the H3/H4 but not the H2. -/
theorem section_path_tracking :
    (∀ (st : ExtState) (lv : Nat) (raw : String),
      2 ≤ lv → lv ≤ 5 → normalizeHeading raw ≠ "" → stackOrdered st.stack →
      stepElement st (Element.heading lv raw) =
        some { st with stack :=
          (lv, normalizeHeading raw) :: st.stack.filter (fun p => p.1 < lv) }) ∧
    (∀ (st : ExtState) (lv : Nat) (raw : String),
      normalizeHeading raw = "" →
      stepElement st (Element.heading lv raw) = some st) ∧
    (∀ (st : ExtState) (t : Table),
      st.stack = [] → stepElement st (Element.table t) = some st) ∧
    (∀ (st : ExtState) (t : Table) (st' : ExtState),
      stepElement st (Element.table t) = some st' →
      st'.sections = st.sections ∨
      ∃ tt, parseTable t = some (some tt) ∧
        st'.sections = setdefaultAppend st.sections
          ((st.stack.map (fun p => p.2)).reverse) tt) ∧
    (∀ (st : ExtState) (e : Element) (st' : ExtState),
      stackOrdered st.stack → stepElement st e = some st' →
      stackOrdered st'.stack) ∧
    extractSections
      [Element.heading 2 "Pokémon",
       Element.heading 3 "Red and Blue",
       Element.heading 4 "Gym Leaders",
       Element.table ⟨[], none,
        [[⟨true, "Pokémon", none, none⟩, ⟨true, "Level", none, none⟩],
         [⟨false, "Pidgey", none, none⟩, ⟨false, "7", none, none⟩]]⟩] =
      some [⟨["Pokémon", "Red and Blue", "Gym Leaders"],
        [⟨none, ["Pokémon", "Level"],
          [[("Pokémon", "Pidgey"), ("Level", "7")]]⟩]⟩] ∧
    List.foldlM stepElement (⟨[], []⟩ : ExtState)
      [Element.heading 2 "Pokémon",
       Element.heading 3 "Red and Blue",
       Element.heading 4 "Gym Leaders",
       Element.heading 3 "Yellow"] =
      some ⟨[], [(3, "Yellow"), (2, "Pokémon")]⟩ := by
  refine ⟨?_, ?_, ?_, ?_, ?_, by decide, by decide⟩
  · intro st lv raw h2 h5 hne hord
    simp only [stepElement]
    rw [if_pos (by simp [h2, h5]), if_neg hne,
      dropWhile_eq_filter_of_ordered st.stack lv hord]
  · intro st lv raw hemp
    simp [stepElement, hemp]
  · intro st t hst
    simp [stepElement, hst]
  · intro st t st' h
    simp only [stepElement] at h
    split at h
    · exact Or.inl (by cases h; rfl)
    · split at h
      · exact Or.inl (by cases h; rfl)
      · split at h
        · exact Or.inl (by cases h; rfl)
        · split at h
          · exact absurd h (by simp)
          · exact Or.inl (by cases h; rfl)
          · rename_i tt hparse
            refine Or.inr ⟨tt, hparse, ?_⟩
            cases h
            rfl
  · intro st e st' hord h
    cases e with
    | textNode => cases h; exact hord
    | other => cases h; exact hord
    | table t =>
      have hstack : st'.stack = st.stack := by
        simp only [stepElement] at h
        split at h
        · cases h; rfl
        · split at h
          · cases h; rfl
          · split at h
            · cases h; rfl
            · split at h
              · exact absurd h (by simp)
              · cases h; rfl
              · cases h; rfl
      rw [hstack]
      exact hord
    | heading lv raw =>
      simp only [stepElement] at h
      split at h
      · split at h
        · cases h; exact hord
        · cases h
          rename_i hcond hne
          rw [dropWhile_eq_filter_of_ordered st.stack lv hord]
          refine List.pairwise_cons.mpr ⟨?_, ?_⟩
          · intro p hp
            have := List.of_mem_filter hp
            simpa using this
          · exact List.Pairwise.sublist (List.filter_sublist _) hord
      · cases h; exact hord

/-- C5, witnessed at concrete states: a heading pops levels `≥` its
own and pushes itself; an empty heading and an unheaded table are
no-ops. -/
theorem section_path_tracking_witness :
    stepElement ⟨[], [(4, "Gym Leaders"), (3, "Red and Blue"), (2, "Pokémon")]⟩
        (Element.heading 3 "Yellow") =
      some ⟨[], [(3, "Yellow"), (2, "Pokémon")]⟩ ∧
    stepElement ⟨[], [(2, "Pokémon")]⟩ (Element.heading 3 "[edit]") =
      some ⟨[], [(2, "Pokémon")]⟩ ∧
    stepElement ⟨[], []⟩ (Element.table ⟨[], none, []⟩) = some ⟨[], []⟩ := by
  refine ⟨?_, ?_, ?_⟩
  · have h := section_path_tracking.1
      ⟨[], [(4, "Gym Leaders"), (3, "Red and Blue"), (2, "Pokémon")]⟩ 3 "Yellow"
      (by decide) (by decide) (by decide) (by decide)
    rw [h]
    decide
  · exact section_path_tracking.2.1 ⟨[], [(2, "Pokémon")]⟩ 3 "[edit]" (by decide)
  · exact section_path_tracking.2.2.1 ⟨[], []⟩ ⟨[], none, []⟩ rfl

/-! ## Claim C6 -/

theorem cmpNat_eq_iff (a b : Nat) : cmpNat a b = Ordering.eq ↔ a = b := by
  unfold cmpNat
  split_ifs <;> simp <;> omega

theorem cmpNat_lt_gt (a b : Nat) :
    cmpNat a b = Ordering.lt ↔ cmpNat b a = Ordering.gt := by
  unfold cmpNat
  split_ifs <;> simp <;> omega

theorem cmpNat_lt_trans (a b c : Nat) (h1 : cmpNat a b = Ordering.lt)
    (h2 : cmpNat b c = Ordering.lt) : cmpNat a c = Ordering.lt := by
  unfold cmpNat at *
  split_ifs at * <;> simp_all <;> omega

theorem charToNat_inj (a b : Char) (h : a.toNat = b.toNat) : a = b :=
  Char.eq_of_val_eq (UInt32.toNat.inj h)

theorem cmpChar_eq_iff (a b : Char) : cmpChar a b = Ordering.eq ↔ a = b := by
  unfold cmpChar
  rw [cmpNat_eq_iff]
  exact ⟨charToNat_inj a b, fun h => h ▸ rfl⟩

theorem cmpChar_lt_gt (a b : Char) :
    cmpChar a b = Ordering.lt ↔ cmpChar b a = Ordering.gt := cmpNat_lt_gt _ _

theorem cmpChar_lt_trans (a b c : Char) (h1 : cmpChar a b = Ordering.lt)
    (h2 : cmpChar b c = Ordering.lt) : cmpChar a c = Ordering.lt :=
  cmpNat_lt_trans _ _ _ h1 h2

theorem cmpChars_eq_iff (a b : List Char) :
    cmpChars a b = Ordering.eq ↔ a = b := by
  induction a generalizing b with
  | nil => cases b <;> simp [cmpChars]
  | cons x xs ih =>
    cases b with
    | nil => simp [cmpChars]
    | cons y ys =>
      simp only [cmpChars]
      rcases hxy : cmpChar x y with _ | _ | _
      · simp only []
        constructor
        · intro h
          exact absurd h (by simp)
        · intro h
          rcases List.cons.injEq x xs y ys ▸ h with ⟨h1, h2⟩
          rw [h1] at hxy
          rw [(cmpChar_eq_iff y y).mpr rfl] at hxy
          exact absurd hxy (by simp)
      · have hx : x = y := (cmpChar_eq_iff x y).mp hxy
        simp [ih, hx]
      · constructor
        · intro h
          exact absurd h (by simp)
        · intro h
          rcases List.cons.injEq x xs y ys ▸ h with ⟨h1, h2⟩
          rw [h1] at hxy
          rw [(cmpChar_eq_iff y y).mpr rfl] at hxy
          exact absurd hxy (by simp)

theorem cmpChars_lt_gt (a b : List Char) :
    cmpChars a b = Ordering.lt ↔ cmpChars b a = Ordering.gt := by
  induction a generalizing b with
  | nil => cases b <;> simp [cmpChars]
  | cons x xs ih =>
    cases b with
    | nil => simp [cmpChars]
    | cons y ys =>
      simp only [cmpChars]
      rcases hxy : cmpChar x y with _ | _ | _
      · have := (cmpChar_lt_gt x y).mp hxy
        simp [this]
      · have hx : x = y := (cmpChar_eq_iff x y).mp hxy
        subst hx
        rw [(cmpChar_eq_iff x x).mpr rfl]
        exact ih ys
      · have hgt : cmpChar y x = Ordering.lt := by
          rw [cmpChar_lt_gt]
          exact hxy
        simp [hgt]

theorem cmpChars_lt_trans (a b c : List Char)
    (h1 : cmpChars a b = Ordering.lt) (h2 : cmpChars b c = Ordering.lt) :
    cmpChars a c = Ordering.lt := by
  induction a generalizing b c with
  | nil =>
    cases b with
    | nil => exact absurd h1 (by simp [cmpChars])
    | cons y ys =>
      cases c with
      | nil => exact absurd h2 (by simp [cmpChars])
      | cons z zs => simp [cmpChars]
  | cons x xs ih =>
    cases b with
    | nil => exact absurd h1 (by simp [cmpChars])
    | cons y ys =>
      cases c with
      | nil => exact absurd h2 (by simp [cmpChars])
      | cons z zs =>
        simp only [cmpChars] at *
        rcases hxy : cmpChar x y with _ | _ | _ <;> rw [hxy] at h1 <;>
          rcases hyz : cmpChar y z with _ | _ | _ <;> rw [hyz] at h2
        · rw [(cmpChar_lt_trans x y z hxy hyz)]
        · have : y = z := (cmpChar_eq_iff y z).mp hyz
          subst this
          rw [hxy]
        · exact absurd h2 (by simp)
        · have : x = y := (cmpChar_eq_iff x y).mp hxy
          subst this
          rw [hyz]
        · have hx : x = y := (cmpChar_eq_iff x y).mp hxy
          have hy : y = z := (cmpChar_eq_iff y z).mp hyz
          subst hx
          subst hy
          rw [(cmpChar_eq_iff x x).mpr rfl]
          exact ih ys zs h1 h2
        · exact absurd h2 (by simp)
        · exact absurd h1 (by simp)
        · exact absurd h1 (by simp)
        · exact absurd h1 (by simp)

theorem cmpStr_eq_iff (a b : String) : cmpStr a b = Ordering.eq ↔ a = b := by
  unfold cmpStr
  rw [cmpChars_eq_iff]
  exact ⟨String.ext, fun h => h ▸ rfl⟩

theorem cmpStr_lt_gt (a b : String) :
    cmpStr a b = Ordering.lt ↔ cmpStr b a = Ordering.gt := cmpChars_lt_gt _ _

theorem cmpStr_lt_trans (a b c : String) (h1 : cmpStr a b = Ordering.lt)
    (h2 : cmpStr b c = Ordering.lt) : cmpStr a c = Ordering.lt :=
  cmpChars_lt_trans _ _ _ h1 h2

theorem cmpPath_eq_iff (a b : List String) :
    cmpPath a b = Ordering.eq ↔ a = b := by
  induction a generalizing b with
  | nil => cases b <;> simp [cmpPath]
  | cons x xs ih =>
    cases b with
    | nil => simp [cmpPath]
    | cons y ys =>
      simp only [cmpPath]
      rcases hxy : cmpStr x y with _ | _ | _
      · constructor
        · intro h
          exact absurd h (by simp)
        · intro h
          rcases List.cons.injEq x xs y ys ▸ h with ⟨h1, h2⟩
          rw [h1, (cmpStr_eq_iff y y).mpr rfl] at hxy
          exact absurd hxy (by simp)
      · have hx : x = y := (cmpStr_eq_iff x y).mp hxy
        simp [ih, hx]
      · constructor
        · intro h
          exact absurd h (by simp)
        · intro h
          rcases List.cons.injEq x xs y ys ▸ h with ⟨h1, h2⟩
          rw [h1, (cmpStr_eq_iff y y).mpr rfl] at hxy
          exact absurd hxy (by simp)

theorem cmpPath_lt_gt (a b : List String) :
    cmpPath a b = Ordering.lt ↔ cmpPath b a = Ordering.gt := by
  induction a generalizing b with
  | nil => cases b <;> simp [cmpPath]
  | cons x xs ih =>
    cases b with
    | nil => simp [cmpPath]
    | cons y ys =>
      simp only [cmpPath]
      rcases hxy : cmpStr x y with _ | _ | _
      · have := (cmpStr_lt_gt x y).mp hxy
        simp [this]
      · have hx : x = y := (cmpStr_eq_iff x y).mp hxy
        subst hx
        rw [(cmpStr_eq_iff x x).mpr rfl]
        exact ih ys
      · have hgt : cmpStr y x = Ordering.lt := by
          rw [cmpStr_lt_gt]
          exact hxy
        simp [hgt]

theorem cmpPath_lt_trans (a b c : List String)
    (h1 : cmpPath a b = Ordering.lt) (h2 : cmpPath b c = Ordering.lt) :
    cmpPath a c = Ordering.lt := by
  induction a generalizing b c with
  | nil =>
    cases b with
    | nil => exact absurd h1 (by simp [cmpPath])
    | cons y ys =>
      cases c with
      | nil => exact absurd h2 (by simp [cmpPath])
      | cons z zs => simp [cmpPath]
  | cons x xs ih =>
    cases b with
    | nil => exact absurd h1 (by simp [cmpPath])
    | cons y ys =>
      cases c with
      | nil => exact absurd h2 (by simp [cmpPath])
      | cons z zs =>
        simp only [cmpPath] at *
        rcases hxy : cmpStr x y with _ | _ | _ <;> rw [hxy] at h1 <;>
          rcases hyz : cmpStr y z with _ | _ | _ <;> rw [hyz] at h2
        · rw [(cmpStr_lt_trans x y z hxy hyz)]
        · have : y = z := (cmpStr_eq_iff y z).mp hyz
          subst this
          rw [hxy]
        · exact absurd h2 (by simp)
        · have : x = y := (cmpStr_eq_iff x y).mp hxy
          subst this
          rw [hyz]
        · have hx : x = y := (cmpStr_eq_iff x y).mp hxy
          have hy : y = z := (cmpStr_eq_iff y z).mp hyz
          subst hx
          subst hy
          rw [(cmpStr_eq_iff x x).mpr rfl]
          exact ih ys zs h1 h2
        · exact absurd h2 (by simp)
        · exact absurd h1 (by simp)
        · exact absurd h1 (by simp)
        · exact absurd h1 (by simp)

theorem pathLe_total (a b : List String) :
    pathLe a b = true ∨ pathLe b a = true := by
  unfold pathLe
  rcases h : cmpPath a b with _ | _ | _
  · left; rfl
  · left; rfl
  · right
    have : cmpPath b a = Ordering.lt := (cmpPath_lt_gt b a).mpr h
    rw [this]

theorem pathLe_trans (a b c : List String) (h1 : pathLe a b = true)
    (h2 : pathLe b c = true) : pathLe a c = true := by
  unfold pathLe at *
  rcases hab : cmpPath a b with _ | _ | _ <;> rw [hab] at h1
  · rcases hbc : cmpPath b c with _ | _ | _ <;> rw [hbc] at h2
    · rw [cmpPath_lt_trans a b c hab hbc]
    · have : b = c := (cmpPath_eq_iff b c).mp hbc
      subst this
      rw [hab]
    · exact absurd h2 (by simp)
  · have : a = b := (cmpPath_eq_iff a b).mp hab
    subst this
    exact h2
  · exact absurd h1 (by simp)

theorem pathLe_antisymm (a b : List String) (h1 : pathLe a b = true)
    (h2 : pathLe b a = true) : a = b := by
  unfold pathLe at *
  rcases hab : cmpPath a b with _ | _ | _ <;> rw [hab] at h1
  · have : cmpPath b a = Ordering.gt := (cmpPath_lt_gt a b).mp hab
    rw [this] at h2
    exact absurd h2 (by simp)
  · exact (cmpPath_eq_iff a b).mp hab
  · exact absurd h1 (by simp)

theorem pathLt_of_le_of_ne (a b : List String) (h1 : pathLe a b = true)
    (h2 : a ≠ b) : cmpPath a b = Ordering.lt := by
  unfold pathLe at h1
  rcases hab : cmpPath a b with _ | _ | _
  · rfl
  · exact absurd ((cmpPath_eq_iff a b).mp hab) h2
  · rw [hab] at h1
    exact absurd h1 (by simp)

theorem mem_insertSorted (x y : List String) (l : List (List String)) :
    x ∈ insertSorted y l ↔ x = y ∨ x ∈ l := by
  induction l with
  | nil => simp [insertSorted]
  | cons hd tl ih =>
    simp only [insertSorted]
    split
    · simp [List.mem_cons]
    · simp only [List.mem_cons, ih]
      tauto

theorem perm_insertSorted (y : List String) (l : List (List String)) :
    List.Perm (insertSorted y l) (y :: l) := by
  induction l with
  | nil => simp [insertSorted]
  | cons hd tl ih =>
    simp only [insertSorted]
    split
    · exact List.Perm.refl _
    · exact List.Perm.trans (List.Perm.cons hd ih) (List.Perm.swap y hd tl)

theorem perm_sortPaths (l : List (List String)) :
    List.Perm (sortPaths l) l := by
  induction l with
  | nil => simp [sortPaths]
  | cons hd tl ih =>
    simp only [sortPaths, List.foldr_cons]
    exact List.Perm.trans (perm_insertSorted hd _) (List.Perm.cons hd ih)

theorem pairwise_insertSorted (x : List String) (l : List (List String))
    (h : List.Pairwise (fun a b => pathLe a b = true) l) :
    List.Pairwise (fun a b => pathLe a b = true) (insertSorted x l) := by
  induction l with
  | nil => simp [insertSorted]
  | cons hd tl ih =>
    rcases List.pairwise_cons.mp h with ⟨hhd, htl⟩
    simp only [insertSorted]
    split
    · rename_i hle
      refine List.pairwise_cons.mpr ⟨?_, h⟩
      intro a ha
      rcases List.mem_cons.mp ha with h1 | h1
      · exact h1 ▸ hle
      · exact pathLe_trans _ _ _ hle (hhd a h1)
    · rename_i hnle
      have hle : pathLe hd x = true := by
        rcases pathLe_total x hd with h1 | h1
        · exact absurd h1 hnle
        · exact h1
      refine List.pairwise_cons.mpr ⟨?_, ih htl⟩
      intro a ha
      rcases (mem_insertSorted a x tl).mp ha with h1 | h1
      · exact h1 ▸ hle
      · exact hhd a h1

theorem pairwise_sortPaths (l : List (List String)) :
    List.Pairwise (fun a b => pathLe a b = true) (sortPaths l) := by
  induction l with
  | nil => simp [sortPaths]
  | cons hd tl ih => exact pairwise_insertSorted hd _ ih

theorem sortPaths_nodup (l : List (List String)) (h : l.Nodup) :
    (sortPaths l).Nodup := ((perm_sortPaths l).symm).nodup h

theorem pairwise_lt_sortPaths (l : List (List String)) (h : l.Nodup) :
    List.Pairwise (fun a b => cmpPath a b = Ordering.lt) (sortPaths l) := by
  have hle := pairwise_sortPaths l
  have hnd := sortPaths_nodup l h
  have := List.Pairwise.and hle hnd
  exact this.imp (fun hab => pathLt_of_le_of_ne _ _ hab.1 hab.2)

theorem mem_keys_setdefault (secs : Sections) (key x : List String)
    (tt : TeamTable)
    (h : x ∈ (setdefaultAppend secs key tt).map (fun p => p.1)) :
    x ∈ secs.map (fun p => p.1) ∨ x = key := by
  induction secs with
  | nil =>
    simp [setdefaultAppend] at h
    exact Or.inr h
  | cons hd tl ih =>
    obtain ⟨k, ts⟩ := hd
    by_cases hk : k = key
    · subst hk
      simp only [setdefaultAppend, if_pos rfl, List.map_cons] at h
      simpa using Or.inl h
    · simp only [setdefaultAppend, if_neg hk, List.map_cons, List.mem_cons] at h
      rcases h with h | h
      · exact Or.inl (by simp [h])
      · rcases ih h with h1 | h1
        · exact Or.inl (by simp [h1])
        · exact Or.inr h1

theorem nodup_keys_setdefault (secs : Sections) (key : List String)
    (tt : TeamTable) (h : (secs.map (fun p => p.1)).Nodup) :
    ((setdefaultAppend secs key tt).map (fun p => p.1)).Nodup := by
  induction secs with
  | nil => simp [setdefaultAppend]
  | cons hd tl ih =>
    obtain ⟨k, ts⟩ := hd
    rcases List.pairwise_cons.mp h with ⟨hk1, hk2⟩
    by_cases hk : k = key
    · subst hk
      simp only [setdefaultAppend, if_pos rfl, List.map_cons]
      exact List.pairwise_cons.mpr ⟨by simpa using hk1, hk2⟩
    · simp only [setdefaultAppend, if_neg hk, List.map_cons]
      refine List.pairwise_cons.mpr ⟨?_, ih hk2⟩
      intro a ha
      rcases mem_keys_setdefault tl key a tt ha with h1 | h1
      · exact hk1 a (by simpa using h1)
      · rw [h1]
        exact hk

theorem stepElement_nodup_keys (st : ExtState) (e : Element) (st' : ExtState)
    (h : (st.sections.map (fun p => p.1)).Nodup)
    (hs : stepElement st e = some st') :
    (st'.sections.map (fun p => p.1)).Nodup := by
  cases e with
  | textNode => cases hs; exact h
  | other => cases hs; exact h
  | heading lv raw =>
    simp only [stepElement] at hs
    split at hs
    · split at hs
      · cases hs; exact h
      · cases hs; exact h
    · cases hs; exact h
  | table t =>
    simp only [stepElement] at hs
    split at hs
    · cases hs; exact h
    · split at hs
      · cases hs; exact h
      · split at hs
        · cases hs; exact h
        · split at hs
          · exact absurd hs (by simp)
          · cases hs; exact h
          · cases hs
            exact nodup_keys_setdefault _ _ _ h

theorem foldlM_nodup_keys (elements : List Element) (st st' : ExtState)
    (h : (st.sections.map (fun p => p.1)).Nodup)
    (hs : elements.foldlM stepElement st = some st') :
    (st'.sections.map (fun p => p.1)).Nodup := by
  induction elements generalizing st with
  | nil =>
    simp only [List.foldlM_nil] at hs
    cases hs
    exact h
  | cons hd tl ih =>
    rcases hstep : stepElement st hd with _ | st1
    · rw [List.foldlM_cons, hstep] at hs
      exact absurd hs (by simp)
    · rw [List.foldlM_cons, hstep] at hs
      exact ih st1 (stepElement_nodup_keys st hd st1 h hstep) (by simpa using hs)

theorem alistFind_isSome_of_mem (secs : Sections) (k : List String)
    (h : k ∈ secs.map (fun p => p.1)) : (alistFind secs k).isSome := by
  induction secs with
  | nil => simp at h
  | cons hd tl ih =>
    obtain ⟨k0, ts⟩ := hd
    by_cases hk : k0 = k
    · simp [alistFind, hk]
    · simp only [List.map_cons, List.mem_cons] at h
      rcases h with h | h
    
      · exact absurd h.symm hk
      · simp only [alistFind, if_neg hk]
        exact ih h

/-- C6: the section groups returned by `extract_sections` come out
strictly sorted by `cmpPath` (lexicographic comparison over the title
sequence, strings compared by code point) — the output order is
determined by the key set alone, independent of the order in which
tables were discovered, so identical input always yields identical
group order. -/
theorem section_groups_sorted (elements : List Element)
    (out : List Section) (h : extractSections elements = some out) :
    List.Pairwise (fun s1 s2 => cmpPath s1.path s2.path = Ordering.lt) out := by
  simp only [extractSections] at h
  rcases hf : elements.foldlM stepElement (⟨[], []⟩ : ExtState) with _ | st
  · rw [hf] at h
    exact absurd h (by simp)
  · rw [hf] at h
    simp only [Option.some.injEq] at h
    have hnd : (st.sections.map (fun p => p.1)).Nodup :=
      foldlM_nodup_keys elements ⟨[], []⟩ st (by simp) hf
    have hsorted := pairwise_lt_sortPaths (st.sections.map (fun p => p.1)) hnd
    rw [← h]
    rw [List.pairwise_filterMap]
    refine hsorted.imp ?_
    intro a b hab s1 hs1 s2 hs2
    rcases ho1 : alistFind st.sections a with _ | ts1 <;> rw [ho1] at hs1
    · simp at hs1
    · rcases ho2 : alistFind st.sections b with _ | ts2 <;> rw [ho2] at hs2
      · simp at hs2
      · simp only [Option.map_some', Option.mem_def, Option.some.injEq] at hs1 hs2
        rw [← hs1, ← hs2]
        exact hab

/-- C6, witnessed: two tables discovered under `"Z"` before `"A"` are
emitted with `["Pokémon", "A"]` before `["Pokémon", "Z"]`. -/
theorem section_groups_sorted_witness :
    List.Pairwise (fun s1 s2 => cmpPath s1.path s2.path = Ordering.lt)
      [(⟨["Pokémon", "A"],
          [⟨none, ["Pokémon", "Level"],
            [[("Pokémon", "Mew"), ("Level", "9")]]⟩]⟩ : Section),
       ⟨["Pokémon", "Z"],
          [⟨none, ["Pokémon", "Level"],
            [[("Pokémon", "Pidgey"), ("Level", "7")]]⟩]⟩] :=
  section_groups_sorted
    [Element.heading 2 "Pokémon",
     Element.heading 3 "Z",
     Element.table ⟨[], none,
      [[⟨true, "Pokémon", none, none⟩, ⟨true, "Level", none, none⟩],
       [⟨false, "Pidgey", none, none⟩, ⟨false, "7", none, none⟩]]⟩,
     Element.heading 3 "A",
     Element.table ⟨[], none,
      [[⟨true, "Pokémon", none, none⟩, ⟨true, "Level", none, none⟩],
       [⟨false, "Mew", none, none⟩, ⟨false, "9", none, none⟩]]⟩]
    _ (by decide)

/-! ## Claim C3 -/

/-- Invariant of `_parse_row`'s state: the cursor is nonnegative and
the number of produced values equals the cursor (each column up to the
cursor has been written exactly once).  Holds whenever every colspan
is nonnegative. -/
def gridStInv (st : List String × SpanMap × Int) : Prop :=
  0 ≤ st.2.2 ∧ st.1.length = st.2.2.toNat

/-- The fate of a pending span entry `(c0 ↦ (t0, rem0))` during row
processing: it is still pending untouched with the cursor at or left
of its column, or its text has been written at column `c0` of the row,
or one of the row's own cells (drawn from `texts`) has been written at
column `c0` (the explicit-cell override). -/
def fate (c0 : Int) (t0 : String) (rem0 : Int) (texts : List String)
    (st : List String × SpanMap × Int) : Prop :=
  (smLookup st.2.1 c0 = some (t0, rem0) ∧ st.2.2 ≤ c0)
  ∨ st.1.get? c0.toNat = some t0
  ∨ ∃ s ∈ texts, st.1.get? c0.toNat = some s

theorem fate_mono (c0 : Int) (t0 : String) (rem0 : Int)
    (texts texts' : List String) (st : List String × SpanMap × Int)
    (hsub : ∀ s ∈ texts, s ∈ texts') (h : fate c0 t0 rem0 texts st) :
    fate c0 t0 rem0 texts' st := by
  rcases h with h | h | ⟨s, hs, hget⟩
  · exact Or.inl h
  · exact Or.inr (Or.inl h)
  · exact Or.inr (Or.inr ⟨s, hsub s hs, hget⟩)

theorem consumeGo_fate (n : Nat) (vals : List String) (m : SpanMap) (c : Int)
    (v' : List String) (m' : SpanMap) (c' : Int)
    (heq : consumeGo n vals m c = (v', m', c'))
    (hc : 0 ≤ c) (hlen : vals.length = c.toNat) :
    0 ≤ c' ∧ v'.length = c'.toNat ∧ c ≤ c' ∧ (∃ ext, v' = vals ++ ext) ∧
    ∀ c0 t0 rem0 texts, fate c0 t0 rem0 texts (vals, m, c) →
      fate c0 t0 rem0 texts (v', m', c') := by
  induction n generalizing vals m c with
  | zero =>
    simp only [consumeGo] at heq
    injection heq with h1 hrest
    injection hrest with h2 h3
    subst h1
    subst h2
    subst h3
    refine ⟨hc, hlen, le_refl c, ⟨[], by simp⟩, fun _ _ _ _ h => h⟩
  | succ k ih =>
    rcases hl : smLookup m c with _ | ⟨text, remaining⟩
    · simp only [consumeGo, hl] at heq
      injection heq with h1 hrest
      injection hrest with h2 h3
      subst h1
      subst h2
      subst h3
      refine ⟨hc, hlen, le_refl c, ⟨[], by simp⟩, fun _ _ _ _ h => h⟩
    · have hc1 : (0 : Int) ≤ c + 1 := by omega
      have hlen1 : (vals ++ [text]).length = (c + 1).toNat := by
        simp only [List.length_append, List.length_cons, List.length_nil, hlen]
        omega
      have hfstep : ∀ (m1 : SpanMap),
          (∀ cc, cc ≠ c → smLookup m1 cc = smLookup m cc) →
          ∀ c0 t0 rem0 texts, fate c0 t0 rem0 texts (vals, m, c) →
            fate c0 t0 rem0 texts (vals ++ [text], m1, c + 1) := by
        intro m1 hm1 c0 t0 rem0 texts hf
        simp only [fate] at hf ⊢
        rcases hf with ⟨hlook, hcle⟩ | hw | ⟨s, hs, hw⟩
        · by_cases hc0 : c0 = c
          · subst hc0
            rw [hl] at hlook
            injection hlook with hpair
            injection hpair with ht hrem
            refine Or.inr (Or.inl ?_)
            rw [← hlen, ← ht]
            exact List.get?_concat_length vals text
          · refine Or.inl ⟨?_, ?_⟩
            · rw [hm1 c0 hc0]
              exact hlook
            · omega
        · refine Or.inr (Or.inl ?_)
          have hb : c0.toNat < vals.length := (List.get?_eq_some.mp hw).1
          rw [List.get?_append hb]
          exact hw
        · refine Or.inr (Or.inr ⟨s, hs, ?_⟩)
          have hb : c0.toNat < vals.length := (List.get?_eq_some.mp hw).1
          rw [List.get?_append hb]
          exact hw
      by_cases hrem : 1 < remaining
      · simp only [consumeGo, hl, if_pos hrem] at heq
        obtain ⟨h1, h2, h3, ⟨ext, hext⟩, h5⟩ := ih _ _ _ heq hc1 hlen1
        refine ⟨h1, h2, by omega, ⟨text :: ext, by simp [hext]⟩, ?_⟩
        intro c0 t0 rem0 texts hf
        refine h5 c0 t0 rem0 texts ?_
        exact hfstep _ (fun cc hcc => smLookup_set_ne m c cc _ hcc) _ _ _ _ hf
      · simp only [consumeGo, hl, if_neg hrem] at heq
        obtain ⟨h1, h2, h3, ⟨ext, hext⟩, h5⟩ := ih _ _ _ heq hc1 hlen1
        refine ⟨h1, h2, by omega, ⟨text :: ext, by simp [hext]⟩, ?_⟩
        intro c0 t0 rem0 texts hf
        refine h5 c0 t0 rem0 texts ?_
        exact hfstep _ (fun cc hcc => smLookup_erase_ne m c cc hcc) _ _ _ _ hf

theorem regFold_lookup (offs : List Nat) (m : SpanMap) (c1 c0 : Int)
    (v : String × Int) (h : ∀ off ∈ offs, c1 + (off : Int) ≠ c0) :
    smLookup (offs.foldl (fun acc off => smSet acc (c1 + (off : Int)) v) m) c0 =
      smLookup m c0 := by
  induction offs generalizing m with
  | nil => rfl
  | cons hd tl ih =>
    rw [show (hd :: tl).foldl (fun acc off => smSet acc (c1 + (off : Int)) v) m =
        tl.foldl (fun acc off => smSet acc (c1 + (off : Int)) v)
          (smSet m (c1 + (hd : Int)) v) from rfl]
    rw [ih _ (fun off hoff => h off (List.mem_cons_of_mem hd hoff))]
    exact smLookup_set_ne m _ c0 v (Ne.symm (h hd (List.mem_cons_self hd tl)))

theorem cellStep_fate (st st' : List String × SpanMap × Int) (cl : Cell)
    (hstep : cellStep st cl = some st') (hinv : gridStInv st)
    (hcol : ∀ k, spanAttr cl.colspan = some k → 0 ≤ k) :
    gridStInv st' ∧
    ∀ c0 t0 rem0 texts, fate c0 t0 rem0 texts st →
      fate c0 t0 rem0 (texts ++ [cl.text]) st' := by
  obtain ⟨vals, m, c⟩ := st
  obtain ⟨hc, hlen⟩ := hinv
  rcases hcs : consumeSpans vals m c with ⟨v1, m1, c1⟩
  obtain ⟨hc1, hlen1, hcle1, _, hfate1⟩ :=
    consumeGo_fate (countGE m c) vals m c v1 m1 c1 hcs hc hlen
  rcases hcol' : spanAttr cl.colspan with _ | colspan
  · simp [cellStep, hcs, hcol'] at hstep
  rcases hrow' : spanAttr cl.rowspan with _ | rowspan
  · simp [cellStep, hcs, hcol', hrow'] at hstep
  have hk : 0 ≤ colspan := hcol colspan hcol'
  simp only [cellStep, hcs, hcol', hrow'] at hstep
  injection hstep with hstep
  have hv2 : st'.1 = v1 ++ List.replicate colspan.toNat cl.text := by
    rw [← hstep]
  have hc2 : st'.2.2 = c1 + colspan := by
    rw [← hstep]
  have hm2 : st'.2.1 =
      (if 1 < rowspan then
        (List.range colspan.toNat).foldl
          (fun acc off => smSet acc (c1 + (off : Int)) (cl.text, rowspan - 1)) m1
      else m1) := by
    rw [← hstep]
  constructor
  · constructor
    · rw [hc2]
      omega
    · rw [hv2, hc2, List.length_append, List.length_replicate, hlen1,
        Int.toNat_add hc1 hk]
  · intro c0 t0 rem0 texts hf
    have hf1 := hfate1 c0 t0 rem0 texts hf
    simp only [fate] at hf1 ⊢
    rcases hf1 with ⟨hlook, hcle⟩ | hw | ⟨s, hs, hw⟩
    · by_cases hcov : c0 < c1 + colspan
      · -- the explicit cell covers column c0
        refine Or.inr (Or.inr ⟨cl.text, by simp, ?_⟩)
        rw [hv2]
        have hb : v1.length ≤ c0.toNat := by
          rw [hlen1]
          omega
        rw [List.get?_append_right hb]
        have hlt : c0.toNat - v1.length < colspan.toNat := by
          rw [hlen1]
          omega
        simp [List.get?_eq_getElem?, List.getElem?_replicate, hlt]
      · -- not covered: still pending, cursor still left of c0
        refine Or.inl ⟨?_, ?_⟩
        · rw [hm2]
          split
          · rw [regFold_lookup _ _ _ _ _ ?ne]
            · exact hlook
            case ne =>
              intro off hoff
              have : (off : Int) < colspan := by
                have := List.mem_range.mp hoff
                omega
              omega
          · exact hlook
        · rw [hc2]
          omega
    · refine Or.inr (Or.inl ?_)
      have hb : c0.toNat < v1.length := (List.get?_eq_some.mp hw).1
      rw [hv2, List.get?_append hb]
      exact hw
    · refine Or.inr (Or.inr ⟨s, by simp [hs], ?_⟩)
      have hb : c0.toNat < v1.length := (List.get?_eq_some.mp hw).1
      rw [hv2, List.get?_append hb]
      exact hw

theorem foldlM_cellStep_fate (cells : List Cell)
    (st res : List String × SpanMap × Int)
    (hf : cells.foldlM cellStep st = some res)
    (hcol : ∀ cl ∈ cells, ∀ k, spanAttr cl.colspan = some k → 0 ≤ k)
    (hinv : gridStInv st) :
    gridStInv res ∧
    ∀ c0 t0 rem0 texts, fate c0 t0 rem0 texts st →
      fate c0 t0 rem0 (texts ++ cells.map Cell.text) res := by
  induction cells generalizing st with
  | nil =>
    simp only [List.foldlM_nil] at hf
    injection hf with hf
    subst hf
    exact ⟨hinv, fun c0 t0 rem0 texts h => by simpa using h⟩
  | cons cl rest ih =>
    rcases hstep : cellStep st cl with _ | st1
    · rw [List.foldlM_cons, hstep] at hf
      exact absurd hf (by simp)
    · rw [List.foldlM_cons, hstep] at hf
      replace hf : rest.foldlM cellStep st1 = some res := by simpa using hf
      obtain ⟨hinv1, hfate1⟩ := cellStep_fate st st1 cl hstep hinv
        (hcol cl (List.mem_cons_self cl rest))
      obtain ⟨hinvr, hfater⟩ := ih st1 hf
        (fun c hc => hcol c (List.mem_cons_of_mem cl hc)) hinv1
      refine ⟨hinvr, ?_⟩
      intro c0 t0 rem0 texts h
      have h1 := hfate1 c0 t0 rem0 texts h
      have h2 := hfater c0 t0 rem0 (texts ++ [cl.text]) h1
      rw [List.append_assoc] at h2
      simpa using h2

/-- C3 counterexample: the claim fails as stated.  In the table
`[[A, B, D(rowspan=2)], [C], [E, F]]` the cell `D` is placed at column
2 of resulting row 0 with rowspan 2; resulting row 1 is `["C"]` — its
cells end before column 2, so it neither contains `D` at column 2 nor
has any explicit cell occupying column 2; the pending value is instead
deferred and appears in resulting row 2. -/
theorem rowspan_gap_counterexample :
    buildRows []
      [[⟨false, "A", none, none⟩, ⟨false, "B", none, none⟩,
        ⟨false, "D", none, some "2"⟩],
       [⟨false, "C", none, none⟩],
       [⟨false, "E", none, none⟩, ⟨false, "F", none, none⟩]] =
      some [(false, ["A", "B", "D"]), (false, ["C"]),
            (false, ["E", "F", "D"])] ∧
    (["C"] : List String).get? 2 = none ∧
    (["C"] : List String).length = 1 := by
  refine ⟨by decide, by decide, by decide⟩

/-- C3 amended: a pending rowspan value registered for column `c` is
carried through each subsequently processed row as follows — either it
is written unchanged at column `c` of that row, or it is still pending
unchanged after the row (the row's cells ended before column `c`), or
an explicit cell of that row occupies column `c` (its text is written
there); consequently, when every covered row reaches column `c`, a
cell with rowspan `r` at column `c` appears unchanged in column `c` of
the next `r` consecutive resulting rows, as in the concrete
three-row-rowspan table below. -/
theorem rowspan_propagation_amended :
    (∀ (cells : List Cell) (m : SpanMap) (vals : List String) (m' : SpanMap)
        (c : Int) (t : String) (rem : Int),
      (∀ cl ∈ cells, ∀ k, spanAttr cl.colspan = some k → 0 ≤ k) →
      parseRow cells m = some (vals, m') →
      smLookup m c = some (t, rem) →
      0 ≤ c →
      vals.get? c.toNat = some t ∨
      smLookup m' c = some (t, rem) ∨
      ∃ cl ∈ cells, vals.get? c.toNat = some cl.text) ∧
    buildRows []
      [[⟨false, "Pidgey", none, some "3"⟩, ⟨false, "1", none, none⟩],
       [⟨false, "2", none, none⟩],
       [⟨false, "3", none, none⟩]] =
      some [(false, ["Pidgey", "1"]), (false, ["Pidgey", "2"]),
            (false, ["Pidgey", "3"])] := by
  constructor
  · intro cells m vals m' c t rem hcol hp hm hc
    rcases hcs0 : consumeSpans [] m 0 with ⟨v0, m0, c0⟩
    obtain ⟨hc0, hlen0, _, _, hfate0⟩ :=
      consumeGo_fate (countGE m 0) [] m 0 v0 m0 c0 hcs0 (le_refl 0) rfl
    simp only [parseRow, hcs0] at hp
    rcases hfold : cells.foldlM cellStep (v0, m0, c0) with _ | res
    · rw [hfold] at hp
      exact absurd hp (by simp)
    · rw [hfold] at hp
      obtain ⟨v1, m1, c1⟩ := res
      rcases hcs1 : consumeSpans v1 m1 c1 with ⟨v2, m2, c2⟩
      have hp2 : some ((consumeSpans v1 m1 c1).1, (consumeSpans v1 m1 c1).2.1) =
          some (vals, m') := hp
      rw [hcs1] at hp2
      injection hp2 with hp2
      injection hp2 with hpv hpm
      obtain ⟨⟨hcr, hlenr⟩, hfater⟩ :=
        foldlM_cellStep_fate cells (v0, m0, c0) (v1, m1, c1) hfold hcol
          ⟨hc0, hlen0⟩
      obtain ⟨_, _, _, _, hfate2⟩ :=
        consumeGo_fate (countGE m1 c1) v1 m1 c1 v2 m2 c2 hcs1 hcr hlenr
      have hinit : fate c t rem [] ([], m, 0) := Or.inl ⟨hm, hc⟩
      have h1 := hfate0 c t rem [] hinit
      have h2 := hfater c t rem [] h1
      have h3 := hfate2 c t rem ([] ++ cells.map Cell.text) h2
      rcases h3 with ⟨hlook, _⟩ | hw | ⟨s, hs, hw⟩
      · refine Or.inr (Or.inl ?_)
        rw [← hpm]
        exact hlook
      · refine Or.inl ?_
        rw [← hpv]
        exact hw
      · refine Or.inr (Or.inr ?_)
        simp only [List.nil_append] at hs
        rcases List.mem_map.mp hs with ⟨cl, hcl, hcleq⟩
        refine ⟨cl, hcl, ?_⟩
        rw [← hpv, hcleq]
        exact hw
  · decide

/-- C3 amended, witnessed: a pending span `(1 ↦ ("B", 1))` processed
through the row `[C]` followed by flush: the value lands at column 1. -/
theorem rowspan_propagation_witness :
    (["C", "B"] : List String).get? (1 : Int).toNat = some "B" ∨
    smLookup [] 1 = some ("B", 1) ∨
    ∃ cl ∈ [(⟨false, "C", none, none⟩ : Cell)],
      (["C", "B"] : List String).get? (1 : Int).toNat = some cl.text :=
  rowspan_propagation_amended.1 [⟨false, "C", none, none⟩] [(1, "B", 1)]
    ["C", "B"] [] 1 "B" 1
    (by decide) (by decide) (by decide) (by decide)
